import Mathlib

/-!
Verification of the sstable read/write engine (sstables.cc) against its
natural-language specification.  The development shallowly embeds the parts
of the source the claims are about: byte sequences are `List Nat` with each
byte below 256, machine integers are `Nat`/`Int` with explicit reductions
modulo powers of two where the source truncates, and fallible parsing
returns `Option`/`Except`.
-/

namespace Sstables

/-! ### Fixed-width integer codecs (sstables.cc `parse`/`write` for integrals)

The source writes fixed-width integers big-endian (`net::hton`) and the
summary positions / entry positions little-endian (`seastar::cpu_to_le`). -/

/-- Big-endian encoding of `v` into `n` bytes (most significant first);
embeds the truncating store of an `n`-byte machine integer. -/
def toBytesBE : Nat → Nat → List Nat
  | 0, _ => []
  | n + 1, v => toBytesBE n (v / 256) ++ [v % 256]

/-- Big-endian decoding of a byte list (`net::ntoh` of a packed read). -/
def fromBytesBE (l : List Nat) : Nat := l.foldl (fun a b => a * 256 + b) 0

/-- Little-endian encoding into `n` bytes (`seastar::cpu_to_le` store). -/
def toBytesLE (n v : Nat) : List Nat := (toBytesBE n v).reverse

/-- Little-endian decoding (`seastar::read_le`). -/
def fromBytesLE (l : List Nat) : Nat := fromBytesBE l.reverse

/-! ### Summary component (sstables.cc: `summary`, `seal_summary`,
`maybe_add_summary_entry`, `parse(summary)`, `write(summary)`)

The `summary` struct itself is declared in a header that is not part of the
sources; its shape is taken from the binary layout in the spec (header of
five fields, `u32 positions[size]`, concatenated entries, `first_key`,
`last_key` as 32-bit length-prefixed strings) which `parse`/`write` in
sstables.cc read and write field by field. -/

/-- `summary::header` (u32 min_index_interval, u32 size, u64 memory_size,
u32 sampling_level, u32 size_at_full_sampling). -/
structure SummaryHeader where
  min_index_interval : Nat
  size : Nat
  memory_size : Nat
  sampling_level : Nat
  size_at_full_sampling : Nat
  deriving DecidableEq, Repr

/-- `summary_entry`: token bytes, key bytes and a u64 position.  On disk an
entry is the raw key followed by the little-endian position; the token is
not stored, it is recomputed from the key by the partitioner on load. -/
structure SummaryEntry where
  token : List Nat
  key : List Nat
  position : Nat
  deriving DecidableEq, Repr

/-- The in-memory `summary` component. -/
structure Summary where
  header : SummaryHeader
  positions : List Nat
  entries : List SummaryEntry
  first_key : List Nat
  last_key : List Nat
  deriving DecidableEq, Repr

/-- Byte size an entry occupies in the entries region: key plus u64
position (`e.key.size() + sizeof(e.position)` in `seal_summary`). -/
def entry_disk_size (e : SummaryEntry) : Nat := e.key.length + 8

/-- The loop of `seal_summary`: starting from `memory_size = mem`, push the
running `memory_size` for every entry and grow it by the entry's size.
Returns the pushed positions and the final `memory_size`. -/
def seal_positions_loop (mem : Nat) : List SummaryEntry → List Nat × Nat
  | [] => ([], mem)
  | e :: rest =>
    let r := seal_positions_loop (mem + entry_disk_size e) rest
    (mem :: r.1, r.2)

/-- `sstable::get_size_at_full_sampling`.  Modelled from the spec: the
function is declared in a header outside the sources; per §4.2 `prepare`
it is the expected entry count at base sampling, the partition count
divided by the minimum index interval rounded up. -/
def get_size_at_full_sampling (partition_count min_index_interval : Nat) : Nat :=
  partition_count / min_index_interval +
    (if partition_count % min_index_interval = 0 then 0 else 1)

/-- `index_sampling_state`.  Modelled from the spec: the struct is declared
in a header outside the sources.  `next_data_offset_to_write_summary`
starts at 0 so the first partition (data offset 0) is always sampled, per
invariant 4 (the summary contains the first index entry). -/
structure IndexSamplingState where
  partition_count : Nat
  next_data_offset_to_write_summary : Nat
  summary_byte_cost : Nat
  deriving DecidableEq, Repr

/-- Initial sampling state. Modelled from the spec (see
`IndexSamplingState`): counters start at zero. -/
def initial_sampling_state (cost : Nat) : IndexSamplingState :=
  { partition_count := 0
    next_data_offset_to_write_summary := 0
    summary_byte_cost := cost }

/-- `components_writer::maybe_add_summary_entry` (static overload): bumps
the partition counter; if `data_offset` reached the write threshold,
appends an entry `(token, key, index_offset)` and advances the threshold
by `summary_byte_cost * (8 + 2 + key.size())`. -/
def maybe_add_summary_entry (token key : List Nat) (data_offset index_offset : Nat)
    (state : IndexSamplingState) (entries : List SummaryEntry) :
    IndexSamplingState × List SummaryEntry :=
  let state := { state with partition_count := state.partition_count + 1 }
  if state.next_data_offset_to_write_summary ≤ data_offset then
    let entry_size := 8 + 2 + key.length
    ({ state with
        next_data_offset_to_write_summary :=
          state.next_data_offset_to_write_summary + state.summary_byte_cost * entry_size },
     entries ++ [{ token := token, key := key, position := index_offset }])
  else
    (state, entries)

/-- `seal_summary`: sets `size` from the entry count, recomputes
`size_at_full_sampling`, pushes the positions array (starting from
`memory_size = size * sizeof(uint32_t)`), accumulates `memory_size`, and
stores the first/last keys (the first key doubling as last when the
sstable has a single partition). -/
def seal_summary (s : Summary) (first_key : List Nat) (last_key : Option (List Nat))
    (state : IndexSamplingState) : Summary :=
  let size := s.entries.length
  let r := seal_positions_loop (size * 4) s.entries
  { header := { s.header with
      size := size
      size_at_full_sampling :=
        get_size_at_full_sampling state.partition_count s.header.min_index_interval
      memory_size := r.2 }
    positions := s.positions ++ r.1
    entries := s.entries
    first_key := first_key
    last_key := last_key.getD first_key }

/-! ### Summary binary layout (sstables.cc `write(summary)` and
`parse(summary)`) -/

/-- On-disk bytes of one summary entry (`write(summary_entry)`): the raw
key followed by the position stored little-endian as a u64. -/
def entry_bytes (e : SummaryEntry) : List Nat := e.key ++ toBytesLE 8 e.position

/-- `write(disk_string<uint32_t>)`: u32 big-endian length then the raw
bytes (`check_truncate_and_assign` rejects lengths that do not fit). -/
def write_disk_string (v : List Nat) : List Nat := toBytesBE 4 v.length ++ v

/-- `write(summary)`: big-endian header, little-endian u32 positions,
concatenated entries, then the first and last keys. -/
def write_summary (s : Summary) : List Nat :=
  toBytesBE 4 s.header.min_index_interval ++ toBytesBE 4 s.header.size ++
  toBytesBE 8 s.header.memory_size ++ toBytesBE 4 s.header.sampling_level ++
  toBytesBE 4 s.header.size_at_full_sampling ++
  (s.positions.map (toBytesLE 4)).flatten ++
  (s.entries.map entry_bytes).flatten ++
  write_disk_string s.first_key ++ write_disk_string s.last_key

/-- `random_access_reader::read_exactly` on an in-memory file: `n` bytes at
absolute offset `off`; a read past the end is the `short-read` error. -/
def read_exactly (bs : List Nat) (off n : Nat) : Option (List Nat) :=
  if off + n ≤ bs.length then some ((bs.drop off).take n) else none

/-- The position-decoding loop of `parse(summary)`: `count` u32 values read
little-endian from consecutive 4-byte groups of the buffer. -/
def chunk_le32 : Nat → List Nat → List Nat
  | 0, _ => []
  | n + 1, buf => fromBytesLE (buf.take 4) :: chunk_le32 n (buf.drop 4)

/-- `parse(disk_string<uint32_t>)` at an absolute offset: u32 big-endian
length then that many bytes; returns the value and the offset after it. -/
def parse_disk_string (bs : List Nat) (off : Nat) : Option (List Nat × Nat) :=
  match read_exactly bs off 4 with
  | none => none
  | some lenb =>
    let len := fromBytesBE lenb
    match read_exactly bs (off + 4) len with
    | none => none
    | some v => some (v, off + 4 + len)

/-- The entry-reading loop of `parse(summary)`: each entry's byte size is
the difference of consecutive values of the positions array (boundary
included), the key is everything but the final 8 bytes, the position is
read little-endian, and the token is recomputed from the key by the
partitioner `tok`.  An entry shorter than its 8-byte position field would
make the source read out of bounds; that is modelled as a failed parse. -/
def parse_entries (tok : List Nat → List Nat) (bs : List Nat) :
    Nat → List Nat → Nat → Option (List SummaryEntry)
  | _, _, 0 => some []
  | cursor, ps, n + 1 =>
    match ps with
    | p :: next :: rest =>
      let entrysize := next - p
      if entrysize < 8 then none
      else
        match read_exactly bs cursor entrysize with
        | none => none
        | some buf =>
          let keysize := entrysize - 8
          let key := buf.take keysize
          let pos := fromBytesLE (buf.drop keysize)
          match parse_entries tok bs (cursor + entrysize) (next :: rest) n with
          | none => none
          | some es => some ({ token := tok key, key := key, position := pos } :: es)
    | _ => none

/-- `parse(summary)`: reads the header, the positions array (pushing the
transient `positions[size]` boundary equal to `memory_size`, truncated to
the u32 element type of the positions vector), seeks past the entries
region for the first/last keys, then reads the entries starting at
`positions[0] + sizeof(header)` and pops the boundary. -/
def parse_summary (tok : List Nat → List Nat) (bs : List Nat) : Option Summary :=
  match read_exactly bs 0 24 with
  | none => none
  | some hdr =>
    let min_index_interval := fromBytesBE (hdr.take 4)
    let size := fromBytesBE ((hdr.drop 4).take 4)
    let memory_size := fromBytesBE ((hdr.drop 8).take 8)
    let sampling_level := fromBytesBE ((hdr.drop 16).take 4)
    let size_at_full_sampling := fromBytesBE ((hdr.drop 20).take 4)
    match read_exactly bs 24 (size * 4) with
    | none => none
    | some posbuf =>
      let positions := chunk_le32 size posbuf ++ [memory_size % 2 ^ 32]
      match parse_disk_string bs (24 + memory_size) with
      | none => none
      | some fk =>
        match parse_disk_string bs fk.2 with
        | none => none
        | some lk =>
          match positions.head? with
          | none => none
          | some p0 =>
            match parse_entries tok bs (p0 + 24) positions size with
            | none => none
            | some entries =>
              some { header := { min_index_interval := min_index_interval
                                 size := size
                                 memory_size := memory_size
                                 sampling_level := sampling_level
                                 size_at_full_sampling := size_at_full_sampling }
                     positions := positions.dropLast
                     entries := entries
                     first_key := fk.1
                     last_key := lk.1 }

/-- A summary as produced by the writer: the header agrees with the sealed
positions/entries, every field fits its on-disk width, and every entry's
token is the partitioner's token of its key (the token is not stored on
disk, so load can only restore it this way). -/
def well_formed_summary (tok : List Nat → List Nat) (s : Summary) : Prop :=
  s.header.size = s.entries.length ∧
  s.positions = (seal_positions_loop (s.entries.length * 4) s.entries).1 ∧
  s.header.memory_size = (seal_positions_loop (s.entries.length * 4) s.entries).2 ∧
  s.header.memory_size < 2 ^ 32 ∧
  s.header.min_index_interval < 2 ^ 32 ∧
  s.header.sampling_level < 2 ^ 32 ∧
  s.header.size_at_full_sampling < 2 ^ 32 ∧
  (∀ e ∈ s.entries, e.token = tok e.key ∧ e.position < 2 ^ 64 ∧ ∀ b ∈ e.key, b < 256) ∧
  s.first_key.length < 2 ^ 32 ∧ s.last_key.length < 2 ^ 32 ∧
  (∀ b ∈ s.first_key, b < 256) ∧ (∀ b ∈ s.last_key, b < 256)

instance (tok : List Nat → List Nat) (s : Summary) :
    Decidable (well_formed_summary tok s) := by
  unfold well_formed_summary
  infer_instance

/-! ### Writer pipeline summary sampling (components_writer /
sstable_writer_m: `consume_new_partition` + `consume_end_of_partition` +
`consume_end_of_stream`) -/

/-- What one partition contributes to summary sampling: its token and key
bytes, the data-file offset at which it starts and the index-file offset of
its index entry. -/
structure PartitionInput where
  token : List Nat
  key : List Nat
  data_offset : Nat
  index_offset : Nat
  deriving DecidableEq, Repr

/-- The per-partition `maybe_add_summary_entry` calls of the writer, folded
over the partition stream. -/
def run_partitions (parts : List PartitionInput) :
    IndexSamplingState × List SummaryEntry → IndexSamplingState × List SummaryEntry :=
  fun acc => parts.foldl
    (fun acc p => maybe_add_summary_entry p.token p.key p.data_offset p.index_offset acc.1 acc.2)
    acc

/-- The summary life of a write: `prepare_summary` (counters zeroed,
sampling level at the base level 128), one `maybe_add_summary_entry` per
partition, first/last key tracking of `consume_end_of_partition`, and the
final `seal_summary`.  `none` for an empty stream, where `seal_summary`
asserts that a first key exists. -/
def run_summary_writer (cost min_index_interval : Nat) (parts : List PartitionInput) :
    Option Summary :=
  match parts with
  | [] => none
  | p0 :: rest =>
    let r := run_partitions parts (initial_sampling_state cost, [])
    let prepared : Summary :=
      { header := { min_index_interval := min_index_interval
                    size := 0
                    memory_size := 0
                    sampling_level := 128
                    size_at_full_sampling := 0 }
        positions := []
        entries := r.2
        first_key := []
        last_key := [] }
    some (seal_summary prepared p0.key (some ((p0 :: rest).getLast (by simp)).key) r.1)

/-! ### Statistics component (sstables.cc `parse(statistics)`) -/

/-- SSTable versions: LegacyA (`ka`), LegacyB (`la`), ModernM (`mc`). -/
inductive SstVersion
  | ka
  | la
  | mc
  deriving DecidableEq, Repr

/-- `metadata_type` tag values.  The enum is declared in a header outside
the sources; the spec lists the four kinds Validation, Compaction, Stats,
SerializationHeader in tag order, so they carry tags 0..3; other u32
values are unknown tags. -/
def serialization_tag : Nat := 3

/-- The body of the `do_for_each` in `parse(statistics)`: visit each
(tag, offset) element in order, failing on a SerializationHeader entry
when the version is not ModernM; unknown tags only produce a warning.
Parsing of the individual metadata bodies at their offsets is out of scope
here; the returned list is the visit order. -/
def parse_statistics_loop (v : SstVersion) :
    List (Nat × Nat) → Except String (List (Nat × Nat))
  | [] => .ok []
  | e :: rest =>
    if e.1 = serialization_tag ∧ v ≠ SstVersion.mc then
      .error "Statistics is malformed: SSTable is in 2.x format but contains serialization header."
    else
      (parse_statistics_loop v rest).map (e :: ·)

/-- `parse(statistics)`: sorts the tag-to-offset table by tag (old writers
did not respect the order) and then visits every entry.  `boost::sort` is
modelled by insertion sort, which produces the same tag-sorted table. -/
def parse_statistics (v : SstVersion) (offsets : List (Nat × Nat)) :
    Except String (List (Nat × Nat)) :=
  parse_statistics_loop v (offsets.insertionSort (fun a b => a.1 ≤ b.1))

/-! ### TOC generation (sstables.cc `sstable::generate_toc`) -/

/-- `component_type` of the components a generated TOC can reference. -/
inductive ComponentType
  | TOC
  | Statistics
  | Digest
  | Index
  | Summary
  | Data
  | Filter
  | CRC
  | CompressionInfo
  | Scylla
  deriving DecidableEq, Repr

/-- `sstable::generate_toc(compressor_ptr c, double filter_fp_chance)`.
`has_compressor` is `c != nullptr`; `filter_fp_chance_is_one` is the exact
floating comparison `filter_fp_chance == 1.0`. -/
def generate_toc (has_compressor filter_fp_chance_is_one : Bool) : List ComponentType :=
  [ComponentType.TOC, ComponentType.Statistics, ComponentType.Digest,
   ComponentType.Index, ComponentType.Summary, ComponentType.Data] ++
  (if filter_fp_chance_is_one then [] else [ComponentType.Filter]) ++
  (if has_compressor then [ComponentType.CompressionInfo] else [ComponentType.CRC]) ++
  [ComponentType.Scylla]

/-! ### Tombstones and deletion times (sstables.cc `to_deletion_time`,
components_writer::consume(tombstone)) -/

/-- `api::missing_timestamp` (the smallest i64): the timestamp of a
default-constructed, absent tombstone. -/
def missing_timestamp : Int := -(2 ^ 63)

/-- A tombstone: write timestamp and local deletion time.  A tombstone is
"set" (`operator bool`) when its timestamp is not `missing_timestamp`. -/
structure Tombstone where
  timestamp : Int
  deletion_time : Int
  deriving DecidableEq, Repr

/-- The absent tombstone `tombstone()`. -/
def empty_tombstone : Tombstone := { timestamp := missing_timestamp, deletion_time := 0 }

/-- `deletion_time` on-disk struct: i32 local deletion time, i64 marked
for delete at. -/
structure DeletionTime where
  local_deletion_time : Int
  marked_for_delete_at : Int
  deriving DecidableEq, Repr

/-- `to_deletion_time`: a set tombstone maps to its own fields; an absent
one maps to the live sentinel (i32 max, i64 min). -/
def to_deletion_time (t : Tombstone) : DeletionTime :=
  if t.timestamp ≠ missing_timestamp then
    { local_deletion_time := t.deletion_time, marked_for_delete_at := t.timestamp }
  else
    { local_deletion_time := 2 ^ 31 - 1, marked_for_delete_at := -(2 ^ 63) }

/-- Big-endian two's-complement store of a signed integer in `n` bytes. -/
def toBytesBEInt (n : Nat) (z : Int) : List Nat := toBytesBE n (z.emod (2 ^ (8 * n))).toNat

/-- On-disk `deletion_time`: i32 then i64, big-endian. -/
def deletion_time_bytes (dt : DeletionTime) : List Nat :=
  toBytesBEInt 4 dt.local_deletion_time ++ toBytesBEInt 8 dt.marked_for_delete_at

/-! ### Variable-length integers.  Modelled from the spec: the
`write_vint`/`unsigned_vint` codecs live outside the sources; §4.1
specifies the standard extra-bytes-in-leading-zeros encoding with zig-zag
for signed values. -/

/-- Number of extra bytes after the leading byte of an unsigned vint. -/
def vint_extra_bytes (v : Nat) : Nat :=
  if v < 2 ^ 7 then 0
  else if v < 2 ^ 14 then 1
  else if v < 2 ^ 21 then 2
  else if v < 2 ^ 28 then 3
  else if v < 2 ^ 35 then 4
  else if v < 2 ^ 42 then 5
  else if v < 2 ^ 49 then 6
  else if v < 2 ^ 56 then 7
  else 8

/-- Unsigned vint bytes: `n` leading one bits then a zero bit in the first
byte, the value's high bits in the remainder of the first byte, then `n`
further bytes big-endian. -/
def vint_bytes (v : Nat) : List Nat :=
  let n := vint_extra_bytes v
  if n = 0 then [v]
  else if n = 8 then 255 :: toBytesBE 8 v
  else ((256 - 2 ^ (8 - n)) + v / 2 ^ (8 * n)) :: toBytesBE n (v % 2 ^ (8 * n))

/-- Zig-zag of a signed integer (`write_signed_vint`). -/
def zigzag (z : Int) : Nat := if 0 ≤ z then (2 * z).toNat else (-(2 * z) - 1).toNat

/-- Signed vint bytes. -/
def signed_vint_bytes (z : Int) : List Nat := vint_bytes (zigzag z)

/-! ### ModernM clustering bounds and range-tombstone markers
(sstables.cc `rt_marker`, `sstable_writer_m::drain_tombstones`)

Clustering-prefix comparison and serialization are schema-provided
external collaborators; a clustering prefix is modelled as an integer code
ordered like the schema comparators order the prefixes. -/

/-- `bound_kind` of a range-tombstone bound. -/
inductive BoundKind
  | incl_start
  | excl_start
  | incl_end
  | excl_end
  deriving DecidableEq, Repr

/-- `bound_kind_m` of a ModernM marker or clustering entry. -/
inductive BoundKindM
  | excl_end
  | incl_start
  | excl_end_incl_start
  | static_clustering
  | clustering
  | incl_end
  | excl_start
  | incl_end_excl_start
  deriving DecidableEq, Repr

/-- `to_bound_kind_m` (header outside the sources; the evident injection
of the four bound kinds). -/
def to_bound_kind_m : BoundKind → BoundKindM
  | .incl_start => .incl_start
  | .excl_start => .excl_start
  | .incl_end => .incl_end
  | .excl_end => .excl_end

/-- `to_bound_kind` of a marker kind, used for its position (header
outside the sources): a boundary behaves as the bound at its position;
`clustering`/`static_clustering` never occur in an rt_marker. -/
def to_bound_kind : BoundKindM → BoundKind
  | .incl_start => .incl_start
  | .excl_start => .excl_start
  | .incl_end => .incl_end
  | .excl_end => .excl_end
  | .excl_end_incl_start => .incl_start
  | .incl_end_excl_start => .excl_start
  | .clustering => .incl_start
  | .static_clustering => .incl_start

/-- Position weight of a bound: inclusive starts and exclusive ends sort
before the clustering value, the other bounds after it. -/
def bound_weight : BoundKind → Int
  | .incl_start => -1
  | .excl_end => -1
  | .excl_start => 1
  | .incl_end => 1

/-- A position in partition: clustering code plus bound weight, compared
lexicographically. -/
abbrev Position := Int × Int

/-- `position_in_partition::less_compare`. -/
def pos_lt (a b : Position) : Bool := a.1 < b.1 || (a.1 = b.1 && a.2 < b.2)

/-- `position_in_partition_view::after_key` of a clustering row. -/
def after_key (ck : Int) : Position := (ck, 1)

/-- A range tombstone `(start bound, end bound, tombstone)`.  The source
fields `end`/`end_kind` are named `stop`/`stop_kind` here. -/
structure RangeTombstone where
  start : Int
  start_kind : BoundKind
  stop : Int
  stop_kind : BoundKind
  tomb : Tombstone
  deriving DecidableEq, Repr

/-- `rt_marker`: a ModernM range-tombstone bound or boundary; a boundary
carries the second (opening) tombstone in `boundary_tomb`. -/
structure RtMarker where
  clustering : Int
  kind : BoundKindM
  tomb : Tombstone
  boundary_tomb : Option Tombstone
  deriving DecidableEq, Repr

/-- `rt_marker::position()`. -/
def rt_marker_position (m : RtMarker) : Position :=
  (m.clustering, bound_weight (to_bound_kind m.kind))

/-- `range_tombstone::position()`: the position of the start bound. -/
def rt_position (rt : RangeTombstone) : Position := (rt.start, bound_weight rt.start_kind)

/-- `range_tombstone::end_position()`. -/
def rt_end_position (rt : RangeTombstone) : Position := (rt.stop, bound_weight rt.stop_kind)

/-- `get_rt_start` in `drain_tombstones`. -/
def get_rt_start (rt : RangeTombstone) : RtMarker :=
  { clustering := rt.start, kind := to_bound_kind_m rt.start_kind, tomb := rt.tomb,
    boundary_tomb := none }

/-- `get_rt_end` in `drain_tombstones`. -/
def get_rt_end (rt : RangeTombstone) : RtMarker :=
  { clustering := rt.stop, kind := to_bound_kind_m rt.stop_kind, tomb := rt.tomb,
    boundary_tomb := none }

/-- The boundary kind chosen by `write_rt_boundary`. -/
def rt_boundary_kind (rt : RangeTombstone) : BoundKindM :=
  if rt.start_kind = BoundKind.incl_start then BoundKindM.excl_end_incl_start
  else BoundKindM.incl_end_excl_start

/-! ### ModernM writer event model (sstable_writer_m)

The writer is modelled at the record level: each consume step appends the
records it writes to the data file.  Byte-exact cell serialization is not
needed by the claims settled on this model. -/

/-- A record of the ModernM partition body, in write order. -/
inductive DataRec
  | partition_key
  | deletion (dt : DeletionTime)
  | static_row
  | clustering_row (ck : Int)
  | marker (m : RtMarker)
  | end_of_partition
  deriving DecidableEq, Repr

/-- The writer state while one partition is consumed: the two
already-written flags, the pending contents of the range-tombstone stream
(sorted by start position), the currently open end marker and the records
written so far. -/
structure WriterMState where
  tombstone_written : Bool
  static_row_written : Bool
  queue : List RangeTombstone
  end_open_marker : Option RtMarker
  out : List DataRec
  deriving DecidableEq, Repr

/-- `sstable_writer_m::consume(tombstone)`: write the deletion time,
remember that it was written. -/
def consume_partition_tombstone (t : Tombstone) (s : WriterMState) : WriterMState :=
  { s with out := s.out ++ [DataRec.deletion (to_deletion_time t)], tombstone_written := true }

/-- `ensure_tombstone_is_written`: write an absent tombstone if none was
written yet. -/
def ensure_tombstone_is_written (s : WriterMState) : WriterMState :=
  if s.tombstone_written then s else consume_partition_tombstone empty_tombstone s

/-- `sstable_writer_m::consume(static_row)`: ensure the tombstone is out,
write the static row, remember it was written. -/
def consume_static_row (s : WriterMState) : WriterMState :=
  let s := ensure_tombstone_is_written s
  { s with out := s.out ++ [DataRec.static_row], static_row_written := true }

/-- `ensure_static_row_is_written_if_needed`: when the schema has static
columns and no static row went out yet, write an empty synthetic one. -/
def ensure_static_row_is_written_if_needed (has_static : Bool) (s : WriterMState) :
    WriterMState :=
  if has_static && !s.static_row_written then consume_static_row s else s

/-- `sstable_writer_m::consume(rt_marker)` / `write_clustered(rt_marker)`. -/
def consume_rt_marker (m : RtMarker) (s : WriterMState) : WriterMState :=
  { s with out := s.out ++ [DataRec.marker m] }

/-- `range_tombstone_stream::apply` (external accumulator, interface only):
insert keeping the queue sorted by start position. -/
def rts_apply (rt : RangeTombstone) : List RangeTombstone → List RangeTombstone
  | [] => [rt]
  | r :: rest =>
    if pos_lt (rt_position rt) (rt_position r) then rt :: r :: rest
    else r :: rts_apply rt rest

/-- `range_tombstone_stream::get_next(pos)` yields fragments strictly
before `pos` (all of them when no bound is given). -/
def rts_qualifies (pos : Option Position) (rt : RangeTombstone) : Bool :=
  match pos with
  | none => true
  | some p => pos_lt (rt_position rt) p

/-- `range_tombstone::trim_front(schema, pos)` result: the remainder of
the tombstone starting at the drain position. -/
def trim_front_rt (p : Position) (rt : RangeTombstone) : RangeTombstone :=
  { rt with start := p.1,
            start_kind := if p.2 < 0 then BoundKind.incl_start else BoundKind.excl_start }

/-- One iteration of the `while (auto mfo = get_next_rt())` loop of
`sstable_writer_m::drain_tombstones`, applied to the popped tombstone
`rt`: the open/boundary/extend/close-then-open state machine, followed by
re-queueing the part of `rt` that extends past the drain position. -/
def drain_rt_step (pos : Option Position) (s : WriterMState) (rt : RangeTombstone) :
    WriterMState :=
  let stepped :=
    match s.end_open_marker with
    | some eo =>
      if rt_marker_position eo = rt_position rt then
        consume_rt_marker
          { clustering := rt.start, kind := rt_boundary_kind rt, tomb := eo.tomb,
            boundary_tomb := some rt.tomb }
          { s with end_open_marker := some (get_rt_end rt) }
      else if pos_lt (rt_position rt) (rt_marker_position eo) then
        if eo.tomb ≠ rt.tomb then
          consume_rt_marker
            { clustering := rt.start, kind := rt_boundary_kind rt, tomb := eo.tomb,
              boundary_tomb := some rt.tomb }
            { s with end_open_marker := some (get_rt_end rt) }
        else
          { s with end_open_marker := some (get_rt_end rt) }
      else
        let s := consume_rt_marker eo { s with end_open_marker := none }
        consume_rt_marker (get_rt_start rt) { s with end_open_marker := some (get_rt_end rt) }
    | none =>
      consume_rt_marker (get_rt_start rt) { s with end_open_marker := some (get_rt_end rt) }
  match pos with
  | some p =>
    if pos_lt p (rt_end_position rt) then
      { stepped with queue := rts_apply (trim_front_rt p rt) stepped.queue }
    else stepped
  | none => stepped

/-- The drain loop, fuelled: pop the next qualifying tombstone off the
sorted queue and run one step.  The fuel is the number of qualifying
entries, which only shrinks (a re-queued remainder never qualifies). -/
def drain_loop (pos : Option Position) : Nat → WriterMState → WriterMState
  | 0, s => s
  | fuel + 1, s =>
    match s.queue with
    | [] => s
    | rt :: rest =>
      if rts_qualifies pos rt then
        drain_loop pos fuel (drain_rt_step pos { s with queue := rest } rt)
      else s

/-- Number of queue entries `get_next` would still yield. -/
def qualifying_count (pos : Option Position) (q : List RangeTombstone) : Nat :=
  (q.filter (rts_qualifies pos)).length

/-- The tail of `drain_tombstones`: flush a pending end marker that lies
before the drain position (always, when draining to end of partition). -/
def drain_tombstones_flush (pos : Option Position) (s : WriterMState) : WriterMState :=
  match s.end_open_marker, pos with
  | some eo, none => consume_rt_marker eo { s with end_open_marker := none }
  | some eo, some p =>
    if pos_lt (rt_marker_position eo) p then consume_rt_marker eo { s with end_open_marker := none }
    else s
  | none, _ => s

/-- `sstable_writer_m::drain_tombstones(pos)`: ensure the partition
tombstone and (if needed) the static row are out, drain the accumulated
range tombstones up to `pos`, then flush a pending end marker lying before
`pos`. -/
def drain_tombstones (has_static : Bool) (pos : Option Position) (s : WriterMState) :
    WriterMState :=
  drain_tombstones_flush pos
    (drain_loop pos
      (qualifying_count pos
        (ensure_static_row_is_written_if_needed has_static
          (ensure_tombstone_is_written s)).queue)
      (ensure_static_row_is_written_if_needed has_static (ensure_tombstone_is_written s)))

/-- The mutation events one partition feeds to the writer. -/
inductive MutEvent
  | tomb (t : Tombstone)
  | static
  | row (ck : Int)
  | rt (rt : RangeTombstone)
  deriving DecidableEq, Repr

/-- Dispatch of one consumed event (`consume(tombstone)`,
`consume(static_row)`, `consume(clustering_row)`,
`consume(range_tombstone)`). -/
def process_event (has_static : Bool) (s : WriterMState) : MutEvent → WriterMState
  | .tomb t => consume_partition_tombstone t s
  | .static => consume_static_row s
  | .row ck =>
    let s := drain_tombstones has_static (some (after_key ck)) s
    { s with out := s.out ++ [DataRec.clustering_row ck] }
  | .rt rt =>
    let s := drain_tombstones has_static (some (rt_position rt)) s
    { s with queue := rts_apply rt s.queue }

/-- State right after `consume_new_partition`: the partition key record is
out and the per-partition flags are reset. -/
def initial_partition_state : WriterMState :=
  { tombstone_written := false
    static_row_written := false
    queue := []
    end_open_marker := none
    out := [DataRec.partition_key] }

/-- One whole partition of the ModernM writer: `consume_new_partition`,
the event stream, then `consume_end_of_partition` (final drain and the
end-of-partition flag byte). -/
def write_partition (has_static : Bool) (events : List MutEvent) : List DataRec :=
  (drain_tombstones has_static none
    (events.foldl (process_event has_static) initial_partition_state)).out ++
  [DataRec.end_of_partition]

/-- The partition tombstone supplied by the stream, if any. -/
def partition_tombstone_of (evs : List MutEvent) : Tombstone :=
  match evs with
  | .tomb t :: _ => t
  | _ => empty_tombstone

/-- Event-kind discriminators. -/
def is_tomb_event : MutEvent → Bool
  | .tomb _ => true
  | _ => false

def is_static_event : MutEvent → Bool
  | .static => true
  | _ => false

def is_body_event : MutEvent → Bool
  | .row _ => true
  | .rt _ => true
  | _ => false

def drop_tomb_event : List MutEvent → List MutEvent
  | .tomb _ :: r => r
  | l => l

def drop_static_event : List MutEvent → List MutEvent
  | .static :: r => r
  | l => l

/-- Spec invariant 2 on the stream: an optional partition tombstone, then
an optional static row, then only clustering rows and range tombstones. -/
def wf_events (evs : List MutEvent) : Bool :=
  (drop_static_event (drop_tomb_event evs)).all is_body_event

/-- Record-kind discriminators over the written partition body. -/
def is_deletion_rec : DataRec → Bool
  | .deletion _ => true
  | _ => false

def is_static_rec : DataRec → Bool
  | .static_row => true
  | _ => false

def is_marker_rec : DataRec → Bool
  | .marker _ => true
  | _ => false

def is_row_or_marker_rec : DataRec → Bool
  | .clustering_row _ => true
  | .marker _ => true
  | _ => false

/-! ### ModernM promoted index (sstable_writer_m::write_promoted_index,
`consume_end_of_partition`) -/

/-- The clustering info stored per promoted-index block boundary. -/
structure ClusteringInfo where
  clustering : Int
  kind : BoundKindM
  deriving DecidableEq, Repr

/-- `pi_block`: one promoted-index block descriptor. -/
structure PiBlock where
  first : ClusteringInfo
  last : ClusteringInfo
  offset : Nat
  width : Nat
  open_marker : Option Tombstone
  deriving DecidableEq, Repr

/-- The bytes of one block descriptor.  `encCk` is the schema-provided
clustering-prefix serializer (`write_clustering_prefix` with the bound
kind and, for non-full prefixes, the u16 component count). -/
def pi_block_bytes (encCk : ClusteringInfo → List Nat) (b : PiBlock) : List Nat :=
  encCk b.first ++ encCk b.last ++ vint_bytes b.offset ++
  signed_vint_bytes ((b.width : Int) - 65536) ++
  (match b.open_marker with
   | some t => 1 :: deletion_time_bytes (to_deletion_time t)
   | none => [0])

/-- The `offsets` vector accumulated while the blocks are written: the
byte offset of each block from the start of the block area. -/
def pi_offsets_from (encCk : ClusteringInfo → List Nat) : Nat → List PiBlock → List Nat
  | _, [] => []
  | acc, b :: rest => acc :: pi_offsets_from encCk (acc + (pi_block_bytes encCk b).length) rest

/-- `sstable_writer_m::write_promoted_index`: partition header length,
partition deletion time, block count, the block descriptors, then the u32
offset table. -/
def write_promoted_index (encCk : ClusteringInfo → List Nat) (partition_header_length : Nat)
    (tomb : Tombstone) (blocks : List PiBlock) : List Nat :=
  vint_bytes partition_header_length ++
  deletion_time_bytes (to_deletion_time tomb) ++
  vint_bytes blocks.length ++
  (blocks.map (pi_block_bytes encCk)).flatten ++
  ((pi_offsets_from encCk 0 blocks).map (toBytesBE 4)).flatten

/-- The block list at `consume_end_of_partition`: the incomplete block is
flushed by `add_pi_block` only when the promoted index is non-empty and a
first clustering is pending. -/
def eop_promoted_blocks (collected : List PiBlock) (pending : Option PiBlock) :
    List PiBlock :=
  collected ++ (if collected.isEmpty then [] else pending.toList)

/-- What `consume_end_of_partition` appends to the index file for the
promoted index: a vint size of zero when fewer than two blocks exist,
otherwise the serialized size followed by the promoted index itself. -/
def consume_end_of_partition_index (encCk : ClusteringInfo → List Nat)
    (partition_header_length : Nat) (tomb : Tombstone)
    (collected : List PiBlock) (pending : Option PiBlock) : List Nat :=
  let blocks := eop_promoted_blocks collected pending
  if blocks.length < 2 then vint_bytes 0
  else
    let pi := write_promoted_index encCk partition_header_length tomb blocks
    vint_bytes pi.length ++ pi

/-! ## Theorems -/

/-! ### Byte-codec lemmas -/

theorem toBytesBE_length (n v : Nat) : (toBytesBE n v).length = n := by
  induction n generalizing v with
  | zero => rfl
  | succ n ih => simp [toBytesBE, ih]

theorem toBytesLE_length (n v : Nat) : (toBytesLE n v).length = n := by
  simp [toBytesLE, toBytesBE_length]

theorem fromBytesBE_append_singleton (l : List Nat) (b : Nat) :
    fromBytesBE (l ++ [b]) = fromBytesBE l * 256 + b := by
  simp [fromBytesBE, List.foldl_append]

theorem fromBytesBE_toBytesBE (n v : Nat) :
    fromBytesBE (toBytesBE n v) = v % 2 ^ (8 * n) := by
  induction n generalizing v with
  | zero => simp [toBytesBE, fromBytesBE, Nat.mod_one]
  | succ n ih =>
    rw [toBytesBE, fromBytesBE_append_singleton, ih]
    have h2 : (2 : Nat) ^ (8 * (n + 1)) = 256 * 2 ^ (8 * n) := by ring
    rw [h2, Nat.mod_mul]
    ring

theorem fromBytesLE_toBytesLE (n v : Nat) :
    fromBytesLE (toBytesLE n v) = v % 2 ^ (8 * n) := by
  simp [fromBytesLE, toBytesLE, fromBytesBE_toBytesBE]

theorem toBytesBE_lt (n v : Nat) : ∀ b ∈ toBytesBE n v, b < 256 := by
  induction n generalizing v with
  | zero => simp [toBytesBE]
  | succ n ih =>
    intro b hb
    simp only [toBytesBE, List.mem_append, List.mem_singleton] at hb
    rcases hb with h | h
    · exact ih _ b h
    · subst h; exact Nat.mod_lt _ (by norm_num)

theorem toBytesLE_lt (n v : Nat) : ∀ b ∈ toBytesLE n v, b < 256 := by
  intro b hb
  exact toBytesBE_lt n v b (List.mem_reverse.mp hb)

/-! ### `seal_summary` structure lemmas -/

theorem seal_positions_loop_length (mem : Nat) (es : List SummaryEntry) :
    (seal_positions_loop mem es).1.length = es.length := by
  induction es generalizing mem with
  | nil => rfl
  | cons e rest ih => simp [seal_positions_loop, ih]

theorem seal_positions_loop_total (mem : Nat) (es : List SummaryEntry) :
    (seal_positions_loop mem es).2 = mem + (es.map entry_disk_size).sum := by
  induction es generalizing mem with
  | nil => simp [seal_positions_loop]
  | cons e rest ih => simp [seal_positions_loop, ih]; ring

theorem seal_positions_loop_get (mem : Nat) (es : List SummaryEntry) :
    ∀ i, i < es.length →
      (seal_positions_loop mem es).1[i]? =
        some (mem + ((es.take i).map entry_disk_size).sum) := by
  induction es generalizing mem with
  | nil => intro i hi; simp at hi
  | cons e rest ih =>
    intro i hi
    match i with
    | 0 => simp [seal_positions_loop]
    | j + 1 =>
      have hj : j < rest.length := by simpa using hi
      simp only [seal_positions_loop, List.getElem?_cons_succ, List.take_succ_cons,
        List.map_cons, List.sum_cons]
      rw [ih (mem + entry_disk_size e) j hj]
      congr 1
      ring

/-! ### C7 — TOC: exactly one of CRC and CompressionInfo -/

/-- C7: for every generated TOC, CRC is present exactly when no compressor
is configured and CompressionInfo exactly when one is; never both, never
neither. -/
theorem generate_toc_crc_xor_compression_info (has_compressor fp_one : Bool) :
    ((ComponentType.CRC ∈ generate_toc has_compressor fp_one) ↔ has_compressor = false) ∧
    ((ComponentType.CompressionInfo ∈ generate_toc has_compressor fp_one) ↔
      has_compressor = true) ∧
    ¬(ComponentType.CRC ∈ generate_toc has_compressor fp_one ∧
      ComponentType.CompressionInfo ∈ generate_toc has_compressor fp_one) ∧
    (ComponentType.CRC ∈ generate_toc has_compressor fp_one ∨
      ComponentType.CompressionInfo ∈ generate_toc has_compressor fp_one) := by
  cases has_compressor <;> cases fp_one <;> decide

/-! ### C3 — `maybe_add_summary_entry` behaviour -/

/-- C3: below the threshold only the partition counter changes; at or
above it exactly the entry `(token, key, index_offset)` is appended and
the threshold advances by `summary_byte_cost * (8 + 2 + key.len)`. -/
theorem maybe_add_summary_entry_spec (token key : List Nat)
    (data_offset index_offset : Nat) (state : IndexSamplingState)
    (entries : List SummaryEntry) :
    (data_offset < state.next_data_offset_to_write_summary →
      maybe_add_summary_entry token key data_offset index_offset state entries =
        ({ state with partition_count := state.partition_count + 1 }, entries)) ∧
    (state.next_data_offset_to_write_summary ≤ data_offset →
      maybe_add_summary_entry token key data_offset index_offset state entries =
        ({ state with
            partition_count := state.partition_count + 1
            next_data_offset_to_write_summary :=
              state.next_data_offset_to_write_summary +
                state.summary_byte_cost * (8 + 2 + key.length) },
         entries ++ [{ token := token, key := key, position := index_offset }])) := by
  constructor
  · intro h
    simp [maybe_add_summary_entry, Nat.not_le.mpr h]
  · intro h
    simp [maybe_add_summary_entry, h]

/-- Witness for C3: both branches at concrete inputs. -/
theorem maybe_add_summary_entry_spec_witness :
    ((3 : Nat) < 5 ∧
      maybe_add_summary_entry [9] [7] 3 11 ⟨2, 5, 10⟩ [] = (⟨3, 5, 10⟩, [])) ∧
    ((5 : Nat) ≤ 8 ∧
      maybe_add_summary_entry [9] [7] 8 11 ⟨2, 5, 10⟩ [] =
        (⟨3, 5 + 10 * 11, 10⟩, [⟨[9], [7], 11⟩])) := by
  refine ⟨⟨by decide, ?_⟩, ⟨by decide, ?_⟩⟩
  · exact (maybe_add_summary_entry_spec [9] [7] 3 11 ⟨2, 5, 10⟩ []).1 (by decide)
  · exact (maybe_add_summary_entry_spec [9] [7] 8 11 ⟨2, 5, 10⟩ []).2 (by decide)

/-! ### C1 — `seal_summary` positions and memory size -/

/-- C1 counterexample: sealing a summary holding one entry with a 3-byte
key yields `positions = [4]` (the offset is measured from the start of the
positions region, which occupies `4 * size` bytes), not `positions = [0]`
as the claim's "offset from the start of the entries region" would have. -/
theorem seal_summary_positions_counterexample :
    (seal_summary
        { header := ⟨128, 0, 0, 128, 0⟩
          positions := []
          entries := [⟨[9], [1, 2, 3], 77⟩]
          first_key := []
          last_key := [] }
        [1, 2, 3] none ⟨1, 0, 10⟩).positions = [4] ∧ (4 : Nat) ≠ 0 := by
  constructor
  · rfl
  · decide

/-- C1 amended: after `seal`, `positions[i]` is the byte offset of entry
`i` measured from the end of the header, i.e. from the start of the
positions region: `positions[i] = 4 * size + Σ earlier entry sizes` (so
`positions[0] = 4 * size` and `positions[i+1] = positions[i] +
key_len(i) + 8`), and `memory_size` is the total bytes of the positions
array plus the entries region. -/
theorem seal_summary_amended (s : Summary) (fk : List Nat) (lk : Option (List Nat))
    (st : IndexSamplingState) (h : s.positions = []) :
    (seal_summary s fk lk st).positions.length = s.entries.length ∧
    (∀ i, i < s.entries.length →
      (seal_summary s fk lk st).positions[i]? =
        some (s.entries.length * 4 + ((s.entries.take i).map entry_disk_size).sum)) ∧
    (seal_summary s fk lk st).header.memory_size =
      s.entries.length * 4 + (s.entries.map entry_disk_size).sum ∧
    (seal_summary s fk lk st).header.size = s.entries.length := by
  refine ⟨?_, ?_, ?_, rfl⟩
  · simp [seal_summary, h, seal_positions_loop_length]
  · intro i hi
    simp only [seal_summary, h, List.nil_append]
    exact seal_positions_loop_get (s.entries.length * 4) s.entries i hi
  · simp [seal_summary, seal_positions_loop_total]

/-- Witness for C1's amended theorem at a two-entry summary. -/
theorem seal_summary_amended_witness :
    (({ header := ⟨128, 0, 0, 128, 0⟩
        positions := []
        entries := [⟨[9], [1, 2, 3], 77⟩, ⟨[9], [5], 99⟩]
        first_key := []
        last_key := [] } : Summary).positions = []) ∧
    ((seal_summary
        { header := ⟨128, 0, 0, 128, 0⟩
          positions := []
          entries := [⟨[9], [1, 2, 3], 77⟩, ⟨[9], [5], 99⟩]
          first_key := []
          last_key := [] }
        [1, 2, 3] (some [5]) ⟨2, 0, 10⟩).positions.length = 2 ∧
     (∀ i, i < 2 →
       (seal_summary
          { header := ⟨128, 0, 0, 128, 0⟩
            positions := []
            entries := [⟨[9], [1, 2, 3], 77⟩, ⟨[9], [5], 99⟩]
            first_key := []
            last_key := [] }
          [1, 2, 3] (some [5]) ⟨2, 0, 10⟩).positions[i]? =
         some (2 * 4 + (([⟨[9], [1, 2, 3], 77⟩, ⟨[9], [5], 99⟩].take i).map
            entry_disk_size).sum)) ∧
     (seal_summary
        { header := ⟨128, 0, 0, 128, 0⟩
          positions := []
          entries := [⟨[9], [1, 2, 3], 77⟩, ⟨[9], [5], 99⟩]
          first_key := []
          last_key := [] }
        [1, 2, 3] (some [5]) ⟨2, 0, 10⟩).header.memory_size =
       2 * 4 + ([⟨[9], [1, 2, 3], 77⟩, ⟨[9], [5], 99⟩].map entry_disk_size).sum ∧
     (seal_summary
        { header := ⟨128, 0, 0, 128, 0⟩
          positions := []
          entries := [⟨[9], [1, 2, 3], 77⟩, ⟨[9], [5], 99⟩]
          first_key := []
          last_key := [] }
        [1, 2, 3] (some [5]) ⟨2, 0, 10⟩).header.size = 2) := by
  refine ⟨rfl, ?_⟩
  exact seal_summary_amended
    { header := ⟨128, 0, 0, 128, 0⟩
      positions := []
      entries := [⟨[9], [1, 2, 3], 77⟩, ⟨[9], [5], 99⟩]
      first_key := []
      last_key := [] }
    [1, 2, 3] (some [5]) ⟨2, 0, 10⟩ rfl

/-! ### C5 — promoted index written at `consume_end_of_partition` -/

/-- C5: the promoted index goes to the index file prefixed by its vint
size; with fewer than two blocks a single zero byte (vint size 0) is
written and no body, otherwise the vint size followed by the serialized
promoted index. -/
theorem consume_end_of_partition_index_spec (encCk : ClusteringInfo → List Nat)
    (phl : Nat) (tomb : Tombstone) (collected : List PiBlock)
    (pending : Option PiBlock) :
    ((eop_promoted_blocks collected pending).length < 2 →
      consume_end_of_partition_index encCk phl tomb collected pending = [0]) ∧
    (2 ≤ (eop_promoted_blocks collected pending).length →
      consume_end_of_partition_index encCk phl tomb collected pending =
        vint_bytes
          (write_promoted_index encCk phl tomb (eop_promoted_blocks collected pending)).length ++
        write_promoted_index encCk phl tomb (eop_promoted_blocks collected pending)) := by
  constructor
  · intro h
    simp only [consume_end_of_partition_index, if_pos h]
    rfl
  · intro h
    simp only [consume_end_of_partition_index, if_neg (Nat.not_lt.mpr h)]

/-- Witness for C5: one collected block (plus a pending one that is
flushed) against a single-block partition. -/
theorem consume_end_of_partition_index_spec_witness :
    ((eop_promoted_blocks [] (some ⟨⟨0, .clustering⟩, ⟨1, .clustering⟩, 0, 10, none⟩)).length
        < 2 ∧
      consume_end_of_partition_index (fun _ => [7]) 3 empty_tombstone []
        (some ⟨⟨0, .clustering⟩, ⟨1, .clustering⟩, 0, 10, none⟩) = [0]) ∧
    (2 ≤ (eop_promoted_blocks
            [⟨⟨0, .clustering⟩, ⟨1, .clustering⟩, 0, 10, none⟩]
            (some ⟨⟨2, .clustering⟩, ⟨3, .clustering⟩, 10, 20, none⟩)).length ∧
      consume_end_of_partition_index (fun _ => [7]) 3 empty_tombstone
          [⟨⟨0, .clustering⟩, ⟨1, .clustering⟩, 0, 10, none⟩]
          (some ⟨⟨2, .clustering⟩, ⟨3, .clustering⟩, 10, 20, none⟩) =
        vint_bytes
          (write_promoted_index (fun _ => [7]) 3 empty_tombstone
            (eop_promoted_blocks
              [⟨⟨0, .clustering⟩, ⟨1, .clustering⟩, 0, 10, none⟩]
              (some ⟨⟨2, .clustering⟩, ⟨3, .clustering⟩, 10, 20, none⟩))).length ++
        write_promoted_index (fun _ => [7]) 3 empty_tombstone
          (eop_promoted_blocks
            [⟨⟨0, .clustering⟩, ⟨1, .clustering⟩, 0, 10, none⟩]
            (some ⟨⟨2, .clustering⟩, ⟨3, .clustering⟩, 10, 20, none⟩))) := by
  refine ⟨⟨by decide, ?_⟩, ⟨by decide, ?_⟩⟩
  · exact (consume_end_of_partition_index_spec (fun _ => [7]) 3 empty_tombstone []
      (some ⟨⟨0, .clustering⟩, ⟨1, .clustering⟩, 0, 10, none⟩)).1 (by decide)
  · exact (consume_end_of_partition_index_spec (fun _ => [7]) 3 empty_tombstone
      [⟨⟨0, .clustering⟩, ⟨1, .clustering⟩, 0, 10, none⟩]
      (some ⟨⟨2, .clustering⟩, ⟨3, .clustering⟩, 10, 20, none⟩)).2 (by decide)

/-! ### C4 — boundary on matching open-end position -/

/-- C4: when the next range tombstone starts exactly at the open end
marker's position, the drain step emits one boundary marker at that
position carrying the old open tombstone as the closing one and the new
tombstone as the opening one, and stays open with the new tombstone's end
bound as the pending end marker. -/
theorem drain_rt_step_boundary_on_equal_position (pos : Option Position)
    (s : WriterMState) (eo : RtMarker) (rt : RangeTombstone)
    (hopen : s.end_open_marker = some eo)
    (heq : rt_marker_position eo = rt_position rt) :
    (drain_rt_step pos s rt).out =
      s.out ++ [DataRec.marker
        { clustering := rt.start, kind := rt_boundary_kind rt, tomb := eo.tomb,
          boundary_tomb := some rt.tomb }] ∧
    (drain_rt_step pos s rt).end_open_marker = some (get_rt_end rt) := by
  cases pos with
  | none => simp [drain_rt_step, hopen, heq, consume_rt_marker]
  | some p =>
    by_cases ht : pos_lt p (rt_end_position rt) = true
    · simp [drain_rt_step, hopen, heq, consume_rt_marker, ht]
    · simp [drain_rt_step, hopen, heq, consume_rt_marker, ht]

/-- Witness for C4: an open `[.., 5)` end marker meets a tombstone opening
at `[5, ..)`; both share position `(5, -1)`. -/
theorem drain_rt_step_boundary_on_equal_position_witness :
    (({ tombstone_written := true, static_row_written := true, queue := [],
        end_open_marker := some ⟨5, .excl_end, ⟨3, 3⟩, none⟩,
        out := [DataRec.partition_key] } : WriterMState).end_open_marker =
      some ⟨5, .excl_end, ⟨3, 3⟩, none⟩) ∧
    rt_marker_position ⟨5, .excl_end, ⟨3, 3⟩, none⟩ =
      rt_position ⟨5, .incl_start, 9, .incl_end, ⟨4, 4⟩⟩ ∧
    (drain_rt_step none
        { tombstone_written := true, static_row_written := true, queue := [],
          end_open_marker := some ⟨5, .excl_end, ⟨3, 3⟩, none⟩,
          out := [DataRec.partition_key] }
        ⟨5, .incl_start, 9, .incl_end, ⟨4, 4⟩⟩).out =
      [DataRec.partition_key] ++ [DataRec.marker
        { clustering := 5, kind := rt_boundary_kind ⟨5, .incl_start, 9, .incl_end, ⟨4, 4⟩⟩,
          tomb := ⟨3, 3⟩, boundary_tomb := some ⟨4, 4⟩ }] ∧
    (drain_rt_step none
        { tombstone_written := true, static_row_written := true, queue := [],
          end_open_marker := some ⟨5, .excl_end, ⟨3, 3⟩, none⟩,
          out := [DataRec.partition_key] }
        ⟨5, .incl_start, 9, .incl_end, ⟨4, 4⟩⟩).end_open_marker =
      some (get_rt_end ⟨5, .incl_start, 9, .incl_end, ⟨4, 4⟩⟩) := by
  refine ⟨rfl, by decide, ?_⟩
  exact drain_rt_step_boundary_on_equal_position none
    { tombstone_written := true, static_row_written := true, queue := [],
      end_open_marker := some ⟨5, .excl_end, ⟨3, 3⟩, none⟩,
      out := [DataRec.partition_key] }
    ⟨5, .excl_end, ⟨3, 3⟩, none⟩
    ⟨5, .incl_start, 9, .incl_end, ⟨4, 4⟩⟩ rfl (by decide)

/-! ### C6 — statistics parse: version gate and tag sorting -/

theorem parse_statistics_loop_ok (v : SstVersion) (l : List (Nat × Nat))
    (h : ∀ e ∈ l, e.1 = serialization_tag → v = SstVersion.mc) :
    parse_statistics_loop v l = .ok l := by
  induction l with
  | nil => rfl
  | cons e rest ih =>
    have he : ¬(e.1 = serialization_tag ∧ v ≠ SstVersion.mc) := by
      rintro ⟨h1, h2⟩
      exact h2 (h e (by simp) h1)
    rw [parse_statistics_loop, if_neg he, ih (fun x hx => h x (by simp [hx]))]
    rfl

theorem parse_statistics_loop_error (v : SstVersion) (l : List (Nat × Nat))
    (hv : v ≠ SstVersion.mc) (h : serialization_tag ∈ l.map Prod.fst) :
    parse_statistics_loop v l =
      .error "Statistics is malformed: SSTable is in 2.x format but contains serialization header." := by
  induction l with
  | nil => simp at h
  | cons e rest ih =>
    by_cases he : e.1 = serialization_tag
    · rw [parse_statistics_loop, if_pos ⟨he, hv⟩]
    · have hrest : serialization_tag ∈ rest.map Prod.fst := by
        rcases List.mem_map.mp h with ⟨x, hx, hfst⟩
        rcases List.mem_cons.mp hx with h1 | h1
        · exact absurd (h1 ▸ hfst) he
        · exact List.mem_map.mpr ⟨x, h1, hfst⟩
      rw [parse_statistics_loop, if_neg (by rintro ⟨h1, _⟩; exact he h1), ih hrest]
      rfl

/-- C6: the tag-to-offset table is sorted by tag before any entry is
visited (the visit order is a tag-sorted permutation of the table), and a
SerializationHeader entry is accepted exactly when the version is ModernM
(`mc`) — any other version fails with the malformed-sstable error. -/
theorem parse_statistics_spec (v : SstVersion) (offsets : List (Nat × Nat)) :
    ((v ≠ SstVersion.mc ∧ serialization_tag ∈ offsets.map Prod.fst) →
      parse_statistics v offsets =
        .error "Statistics is malformed: SSTable is in 2.x format but contains serialization header.") ∧
    ((v = SstVersion.mc ∨ serialization_tag ∉ offsets.map Prod.fst) →
      parse_statistics v offsets =
        .ok (offsets.insertionSort (fun a b => a.1 ≤ b.1))) ∧
    List.Perm (offsets.insertionSort (fun a b => a.1 ≤ b.1)) offsets ∧
    List.Sorted (fun a b => a.1 ≤ b.1) (offsets.insertionSort (fun a b => a.1 ≤ b.1)) := by
  have hperm : List.Perm (offsets.insertionSort (fun a b => a.1 ≤ b.1)) offsets :=
    List.perm_insertionSort _ offsets
  refine ⟨?_, ?_, hperm, ?_⟩
  · rintro ⟨hv, hmem⟩
    have hmem2 : serialization_tag ∈ (offsets.insertionSort (fun a b => a.1 ≤ b.1)).map
        Prod.fst := (hperm.map Prod.fst).mem_iff.mpr hmem
    exact parse_statistics_loop_error v _ hv hmem2
  · intro h
    apply parse_statistics_loop_ok
    intro e he htag
    rcases h with h | h
    · exact h
    · exfalso
      apply h
      exact (hperm.map Prod.fst).mem_iff.mp (List.mem_map.mpr ⟨e, he, htag⟩)
  · haveI : IsTotal (Nat × Nat) (fun a b => a.1 ≤ b.1) :=
      ⟨fun a b => Nat.le_total a.1 b.1⟩
    haveI : IsTrans (Nat × Nat) (fun a b => a.1 ≤ b.1) :=
      ⟨fun _ _ _ h1 h2 => le_trans h1 h2⟩
    exact List.sorted_insertionSort _ offsets

/-- Witness for C6: a table holding a SerializationHeader tag out of
order, parsed under LegacyB (fails) and under ModernM (succeeds sorted). -/
theorem parse_statistics_spec_witness :
    ((SstVersion.la ≠ SstVersion.mc ∧
        serialization_tag ∈ ([(3, 40), (0, 10)] : List (Nat × Nat)).map Prod.fst) ∧
      parse_statistics SstVersion.la [(3, 40), (0, 10)] =
        .error "Statistics is malformed: SSTable is in 2.x format but contains serialization header.") ∧
    ((SstVersion.mc = SstVersion.mc ∨
        serialization_tag ∉ ([(3, 40), (0, 10)] : List (Nat × Nat)).map Prod.fst) ∧
      parse_statistics SstVersion.mc [(3, 40), (0, 10)] =
        .ok (([(3, 40), (0, 10)] : List (Nat × Nat)).insertionSort
          (fun a b => a.1 ≤ b.1))) := by
  refine ⟨⟨⟨by decide, by decide⟩, ?_⟩, ⟨Or.inl rfl, ?_⟩⟩
  · exact (parse_statistics_spec SstVersion.la [(3, 40), (0, 10)]).1 ⟨by decide, by decide⟩
  · exact (parse_statistics_spec SstVersion.mc [(3, 40), (0, 10)]).2.1 (Or.inl rfl)

/-! ### C8 — what the sealed summary is guaranteed to contain -/

theorem run_partitions_entries_extend (parts : List PartitionInput)
    (st : IndexSamplingState) (es : List SummaryEntry) :
    ∃ t, (run_partitions parts (st, es)).2 = es ++ t := by
  induction parts generalizing st es with
  | nil => exact ⟨[], by simp [run_partitions]⟩
  | cons p ps ih =>
    have hstep : run_partitions (p :: ps) (st, es) =
        run_partitions ps (maybe_add_summary_entry p.token p.key p.data_offset
          p.index_offset st es) := by
      simp [run_partitions]
    rw [hstep]
    by_cases h : ({ st with partition_count := st.partition_count + 1} :
        IndexSamplingState).next_data_offset_to_write_summary ≤ p.data_offset
    · rcases ih _ (es ++ [{ token := p.token, key := p.key, position := p.index_offset }])
        with ⟨t, ht⟩
      refine ⟨{ token := p.token, key := p.key, position := p.index_offset } :: t, ?_⟩
      rw [maybe_add_summary_entry, if_pos h] at *
      simpa using ht
    · rcases ih _ es with ⟨t, ht⟩
      refine ⟨t, ?_⟩
      rw [maybe_add_summary_entry, if_neg h]
      exact ht

/-- C8 counterexample: two partitions with a byte cost of 100; the second
partition's data offset (10) is below the advanced threshold (1100), so
the sealed summary's entries hold only the first index entry — no entry
carries the last partition's key, which survives only as `last_key`. -/
theorem run_summary_writer_counterexample :
    run_summary_writer 100 128 [⟨[1], [1], 0, 0⟩, ⟨[2], [2], 10, 50⟩] =
      some { header := ⟨128, 1, 13, 128, 1⟩
             positions := [4]
             entries := [⟨[1], [1], 0⟩]
             first_key := [1]
             last_key := [2] } ∧
    ([2] ∈ ([⟨[1], [1], 0⟩] : List SummaryEntry).map SummaryEntry.key) = False := by
  constructor
  · rfl
  · simp

/-- C8 amended: the sealed summary always contains the first index entry
(the first partition is sampled against the initial zero threshold), and
records the first and last partition keys as `first_key`/`last_key`;
further entries are sampled by the byte-cost threshold rule, so an entry
for the last partition need not be present. -/
theorem run_summary_writer_amended (cost mii : Nat) (p0 : PartitionInput)
    (rest : List PartitionInput) :
    ∃ s, run_summary_writer cost mii (p0 :: rest) = some s ∧
      s.entries[0]? = some ⟨p0.token, p0.key, p0.index_offset⟩ ∧
      s.first_key = p0.key ∧
      s.last_key = ((p0 :: rest).getLast (by simp)).key ∧
      s.entries = (run_partitions (p0 :: rest) (initial_sampling_state cost, [])).2 := by
  refine ⟨_, rfl, ?_, rfl, rfl, rfl⟩
  have hstep : run_partitions (p0 :: rest) (initial_sampling_state cost, []) =
      run_partitions rest (maybe_add_summary_entry p0.token p0.key p0.data_offset
        p0.index_offset (initial_sampling_state cost) []) := by
    simp [run_partitions]
  have hfirst : maybe_add_summary_entry p0.token p0.key p0.data_offset p0.index_offset
      (initial_sampling_state cost) [] =
      ({ partition_count := 1
         next_data_offset_to_write_summary := cost * (8 + 2 + p0.key.length)
         summary_byte_cost := cost },
       [{ token := p0.token, key := p0.key, position := p0.index_offset }]) := by
    simp [maybe_add_summary_entry, initial_sampling_state]
  rcases run_partitions_entries_extend rest
      { partition_count := 1
        next_data_offset_to_write_summary := cost * (8 + 2 + p0.key.length)
        summary_byte_cost := cost }
      [{ token := p0.token, key := p0.key, position := p0.index_offset }] with ⟨t, ht⟩
  show ((run_partitions (p0 :: rest) (initial_sampling_state cost, [])).2)[0]? = _
  rw [hstep, hfirst, ht]
  simp

/-- Witness for C8's amended theorem at the counterexample's two-partition
input. -/
theorem run_summary_writer_amended_witness :
    ∃ s, run_summary_writer 100 128 [⟨[1], [1], 0, 0⟩, ⟨[2], [2], 10, 50⟩] = some s ∧
      s.entries[0]? = some ⟨[1], [1], 0⟩ ∧
      s.first_key = [1] ∧
      s.last_key = (([⟨[1], [1], 0, 0⟩, ⟨[2], [2], 10, 50⟩] :
        List PartitionInput).getLast (by simp)).key ∧
      s.entries = (run_partitions [⟨[1], [1], 0, 0⟩, ⟨[2], [2], 10, 50⟩]
        (initial_sampling_state 100, [])).2 :=
  run_summary_writer_amended 100 128 ⟨[1], [1], 0, 0⟩ [⟨[2], [2], 10, 50⟩]

/-! ### Writer event-model structure lemmas (towards C9 and C10) -/

theorem markers_countP (ms : List DataRec) (h : ms.all is_marker_rec = true) :
    ms.countP is_deletion_rec = 0 ∧ ms.countP is_static_rec = 0 := by
  constructor <;>
  · rw [List.countP_eq_zero]
    intro r hr
    have := List.all_eq_true.mp h r hr
    cases r <;> simp_all [is_marker_rec, is_deletion_rec, is_static_rec]

theorem drain_rt_step_spec (pos : Option Position) (s : WriterMState)
    (rt : RangeTombstone) :
    s.out <+: (drain_rt_step pos s rt).out ∧
    (drain_rt_step pos s rt).out.countP is_deletion_rec = s.out.countP is_deletion_rec ∧
    (drain_rt_step pos s rt).out.countP is_static_rec = s.out.countP is_static_rec ∧
    (drain_rt_step pos s rt).tombstone_written = s.tombstone_written ∧
    (drain_rt_step pos s rt).static_row_written = s.static_row_written := by
  unfold drain_rt_step consume_rt_marker
  cases s.end_open_marker <;> cases pos <;> simp <;> (try split_ifs) <;>
    simp [List.countP_append, List.countP_cons, is_deletion_rec, is_static_rec,
      List.prefix_append, List.append_assoc]

theorem drain_loop_spec (pos : Option Position) (fuel : Nat) :
    ∀ s : WriterMState,
    s.out <+: (drain_loop pos fuel s).out ∧
    (drain_loop pos fuel s).out.countP is_deletion_rec = s.out.countP is_deletion_rec ∧
    (drain_loop pos fuel s).out.countP is_static_rec = s.out.countP is_static_rec ∧
    (drain_loop pos fuel s).tombstone_written = s.tombstone_written ∧
    (drain_loop pos fuel s).static_row_written = s.static_row_written := by
  induction fuel with
  | zero =>
    intro s
    exact ⟨List.prefix_rfl, rfl, rfl, rfl, rfl⟩
  | succ fuel ih =>
    intro s
    rw [drain_loop]
    cases hq : s.queue with
    | nil => exact ⟨List.prefix_rfl, rfl, rfl, rfl, rfl⟩
    | cons rt rest =>
      simp only []
      by_cases hqual : rts_qualifies pos rt = true
      · rw [if_pos hqual]
        have h1 := drain_rt_step_spec pos { s with queue := rest } rt
        have h2 := ih (drain_rt_step pos { s with queue := rest } rt)
        refine ⟨h1.1.trans h2.1, ?_, ?_, ?_, ?_⟩
        · rw [h2.2.1, h1.2.1]
        · rw [h2.2.2.1, h1.2.2.1]
        · rw [h2.2.2.2.1, h1.2.2.2.1]
        · rw [h2.2.2.2.2, h1.2.2.2.2]
      · rw [if_neg hqual]
        exact ⟨List.prefix_rfl, rfl, rfl, rfl, rfl⟩

theorem ensure_tombstone_spec (s : WriterMState) :
    (ensure_tombstone_is_written s).out =
      s.out ++ (if s.tombstone_written then [] else
        [DataRec.deletion (to_deletion_time empty_tombstone)]) ∧
    (ensure_tombstone_is_written s).tombstone_written = true ∧
    (ensure_tombstone_is_written s).static_row_written = s.static_row_written ∧
    (ensure_tombstone_is_written s).queue = s.queue ∧
    (ensure_tombstone_is_written s).end_open_marker = s.end_open_marker := by
  by_cases h : s.tombstone_written <;>
    simp [ensure_tombstone_is_written, consume_partition_tombstone, h]

theorem ensure_static_spec (has_static : Bool) (s : WriterMState)
    (htw : s.tombstone_written = true) :
    (ensure_static_row_is_written_if_needed has_static s).out =
      s.out ++ (if has_static && !s.static_row_written then [DataRec.static_row] else []) ∧
    (ensure_static_row_is_written_if_needed has_static s).tombstone_written = true ∧
    (ensure_static_row_is_written_if_needed has_static s).static_row_written =
      (s.static_row_written || has_static) ∧
    (ensure_static_row_is_written_if_needed has_static s).queue = s.queue ∧
    (ensure_static_row_is_written_if_needed has_static s).end_open_marker =
      s.end_open_marker := by
  unfold ensure_static_row_is_written_if_needed
  by_cases hc : (has_static && !s.static_row_written) = true
  · have hhs : has_static = true := (Bool.and_eq_true_iff.mp hc).1
    have hsw : s.static_row_written = false := by
      rcases Bool.and_eq_true_iff.mp hc with ⟨_, h2⟩
      simpa using h2
    rw [if_pos hc]
    simp [consume_static_row, ensure_tombstone_is_written, htw, hhs, hsw]
  · rw [if_neg hc]
    refine ⟨by simp [hc], htw, ?_, rfl, rfl⟩
    cases hhs : has_static with
    | false => simp
    | true =>
      cases hsw : s.static_row_written with
      | false => exact absurd (by simp [hhs, hsw]) hc
      | true => simp

theorem drain_tombstones_spec (has_static : Bool) (pos : Option Position)
    (s : WriterMState) :
    (s.out ++
      (if s.tombstone_written then [] else
        [DataRec.deletion (to_deletion_time empty_tombstone)]) ++
      (if has_static && !s.static_row_written then [DataRec.static_row] else [])) <+:
      (drain_tombstones has_static pos s).out ∧
    (drain_tombstones has_static pos s).out.countP is_deletion_rec =
      s.out.countP is_deletion_rec + (if s.tombstone_written then 0 else 1) ∧
    (drain_tombstones has_static pos s).out.countP is_static_rec =
      s.out.countP is_static_rec +
        (if has_static && !s.static_row_written then 1 else 0) ∧
    (drain_tombstones has_static pos s).tombstone_written = true ∧
    (drain_tombstones has_static pos s).static_row_written =
      (s.static_row_written || has_static) := by
  unfold drain_tombstones
  rcases ensure_tombstone_spec s with ⟨he_out, he_tw, he_sw, he_q, he_eo⟩
  rcases ensure_static_spec has_static (ensure_tombstone_is_written s) he_tw
    with ⟨h2_out, h2_tw, h2_sw, h2_q, h2_eo⟩
  rw [he_sw] at h2_out h2_sw
  set s2 := ensure_static_row_is_written_if_needed has_static
    (ensure_tombstone_is_written s) with hs2def
  have h2out : s2.out = s.out ++
      (if s.tombstone_written then [] else
        [DataRec.deletion (to_deletion_time empty_tombstone)]) ++
      (if has_static && !s.static_row_written then [DataRec.static_row] else []) := by
    rw [h2_out, he_out]
  have h3 := drain_loop_spec pos (qualifying_count pos s2.queue) s2
  set s3 := drain_loop pos (qualifying_count pos s2.queue) s2 with hs3def
  have h3pre : s2.out <+: s3.out := h3.1
  have h3del : s3.out.countP is_deletion_rec = s2.out.countP is_deletion_rec := h3.2.1
  have h3sta : s3.out.countP is_static_rec = s2.out.countP is_static_rec := h3.2.2.1
  have h3tw : s3.tombstone_written = true := by rw [h3.2.2.2.1, h2_tw]
  have h3sw : s3.static_row_written = (s.static_row_written || has_static) := by
    rw [h3.2.2.2.2, h2_sw]
  have hcountdel : s2.out.countP is_deletion_rec =
      s.out.countP is_deletion_rec + (if s.tombstone_written then 0 else 1) := by
    rw [h2out]
    by_cases htw : s.tombstone_written = true <;>
      by_cases hc : (has_static && !s.static_row_written) = true <;>
      simp [htw, hc, List.countP_append, List.countP_cons, is_deletion_rec]
  have hcountsta : s2.out.countP is_static_rec =
      s.out.countP is_static_rec +
        (if has_static && !s.static_row_written then 1 else 0) := by
    rw [h2out]
    by_cases hc : (has_static && !s.static_row_written) = true <;>
      by_cases htw : s.tombstone_written = true <;>
      simp [hc, htw, List.countP_append, List.countP_cons, is_static_rec]
  have h4 : s3.out <+: (drain_tombstones_flush pos s3).out ∧
      (drain_tombstones_flush pos s3).out.countP is_deletion_rec =
        s3.out.countP is_deletion_rec ∧
      (drain_tombstones_flush pos s3).out.countP is_static_rec =
        s3.out.countP is_static_rec ∧
      (drain_tombstones_flush pos s3).tombstone_written = s3.tombstone_written ∧
      (drain_tombstones_flush pos s3).static_row_written = s3.static_row_written := by
    unfold drain_tombstones_flush consume_rt_marker
    cases s3.end_open_marker with
    | none => cases pos <;> simp
    | some eo =>
      cases pos with
      | none =>
        simp [List.countP_append, List.countP_cons, is_deletion_rec, is_static_rec,
          List.prefix_append]
      | some p =>
        by_cases hf : pos_lt (rt_marker_position eo) p = true <;>
          simp [hf, List.countP_append, List.countP_cons, is_deletion_rec, is_static_rec,
            List.prefix_append]
  refine ⟨?_, ?_, ?_, ?_, ?_⟩
  · rw [← h2out]
    exact (h3pre.trans h4.1)
  · rw [h4.2.1, h3del, hcountdel]
  · rw [h4.2.2.1, h3sta, hcountsta]
  · rw [h4.2.2.2.1, h3tw]
  · rw [h4.2.2.2.2, h3sw]

theorem to_deletion_time_missing (t : Tombstone) (h : t.timestamp = missing_timestamp) :
    to_deletion_time t =
      { local_deletion_time := 2 ^ 31 - 1, marked_for_delete_at := -(2 ^ 63) } := by
  simp [to_deletion_time, h]

theorem process_event_body_spec (hs : Bool) (s : WriterMState) (e : MutEvent)
    (he : is_body_event e = true) :
    (s.out ++
      (if s.tombstone_written then [] else
        [DataRec.deletion (to_deletion_time empty_tombstone)]) ++
      (if hs && !s.static_row_written then [DataRec.static_row] else [])) <+:
      (process_event hs s e).out ∧
    (process_event hs s e).out.countP is_deletion_rec =
      s.out.countP is_deletion_rec + (if s.tombstone_written then 0 else 1) ∧
    (process_event hs s e).out.countP is_static_rec =
      s.out.countP is_static_rec + (if hs && !s.static_row_written then 1 else 0) ∧
    (process_event hs s e).tombstone_written = true ∧
    (process_event hs s e).static_row_written = (s.static_row_written || hs) := by
  cases e with
  | tomb t => simp [is_body_event] at he
  | static => simp [is_body_event] at he
  | row ck =>
    have hd := drain_tombstones_spec hs (some (after_key ck)) s
    refine ⟨?_, ?_, ?_, ?_, ?_⟩
    · exact hd.1.trans (List.prefix_append _ _)
    · show ((drain_tombstones hs (some (after_key ck)) s).out ++
        [DataRec.clustering_row ck]).countP is_deletion_rec = _
      rw [List.countP_append, hd.2.1]
      simp [is_deletion_rec]
    · show ((drain_tombstones hs (some (after_key ck)) s).out ++
        [DataRec.clustering_row ck]).countP is_static_rec = _
      rw [List.countP_append, hd.2.2.1]
      simp [is_static_rec]
    · exact hd.2.2.2.1
    · exact hd.2.2.2.2
  | rt rt =>
    have hd := drain_tombstones_spec hs (some (rt_position rt)) s
    exact ⟨hd.1, hd.2.1, hd.2.2.1, hd.2.2.2.1, hd.2.2.2.2⟩

theorem fold_body_spec (hs : Bool) (evs : List MutEvent) :
    evs.all is_body_event = true →
    ∀ s : WriterMState, s.tombstone_written = true →
    s.out <+: (evs.foldl (process_event hs) s).out ∧
    (evs.foldl (process_event hs) s).out.countP is_deletion_rec =
      s.out.countP is_deletion_rec ∧
    (evs.foldl (process_event hs) s).tombstone_written = true ∧
    (s.static_row_written = true →
      (evs.foldl (process_event hs) s).out.countP is_static_rec =
        s.out.countP is_static_rec ∧
      (evs.foldl (process_event hs) s).static_row_written = true) := by
  induction evs with
  | nil =>
    intro _ s htw
    exact ⟨List.prefix_rfl, rfl, htw, fun hsw => ⟨rfl, hsw⟩⟩
  | cons e rest ih =>
    intro hall s htw
    rw [List.all_cons] at hall
    rcases Bool.and_eq_true_iff.mp hall with ⟨he, hrest⟩
    have hp := process_event_body_spec hs s e he
    have htw1 : (process_event hs s e).tombstone_written = true := hp.2.2.2.1
    have ihh := ih hrest (process_event hs s e) htw1
    have hself : s.out <+:
        (s.out ++
          (if s.tombstone_written then [] else
            [DataRec.deletion (to_deletion_time empty_tombstone)]) ++
          (if hs && !s.static_row_written then [DataRec.static_row] else [])) := by
      rw [List.append_assoc]
      exact List.prefix_append _ _
    refine ⟨?_, ?_, ihh.2.2.1, ?_⟩
    · exact (hself.trans hp.1).trans ihh.1
    · show ((rest.foldl (process_event hs) (process_event hs s e)).out).countP
        is_deletion_rec = _
      rw [ihh.2.1, hp.2.1, htw]
      simp
    · intro hsw
      have hsw1 : (process_event hs s e).static_row_written = true := by
        rw [hp.2.2.2.2, hsw]
        simp
      have hrec := ihh.2.2.2 hsw1
      constructor
      · show ((rest.foldl (process_event hs) (process_event hs s e)).out).countP
          is_static_rec = _
        rw [hrec.1, hp.2.2.1, hsw]
        simp
      · exact hrec.2

theorem prefix_take_two (dt : DeletionTime) (res : List DataRec)
    (hpre : [DataRec.partition_key, DataRec.deletion dt] <+: res) :
    res.take 2 = [DataRec.partition_key, DataRec.deletion dt] := by
  rcases hpre with ⟨t, rfl⟩
  rw [List.take_append_of_le_length (by simp)]
  rfl

theorem prefix_take_three (dt : DeletionTime) (res : List DataRec)
    (hpre : [DataRec.partition_key, DataRec.deletion dt, DataRec.static_row] <+: res) :
    res.take 3 = [DataRec.partition_key, DataRec.deletion dt, DataRec.static_row] := by
  rcases hpre with ⟨t, rfl⟩
  rw [List.take_append_of_le_length (by simp)]
  rfl

theorem partition_tail_spec (hs : Bool) (body : List MutEvent)
    (hbody : body.all is_body_event = true) (s : WriterMState)
    (htw : s.tombstone_written = true) :
    s.out <+:
      ((drain_tombstones hs none (body.foldl (process_event hs) s)).out ++
        [DataRec.end_of_partition]) ∧
    ((drain_tombstones hs none (body.foldl (process_event hs) s)).out ++
      [DataRec.end_of_partition]).countP is_deletion_rec =
      s.out.countP is_deletion_rec ∧
    (s.static_row_written = true →
      ((drain_tombstones hs none (body.foldl (process_event hs) s)).out ++
        [DataRec.end_of_partition]).countP is_static_rec =
        s.out.countP is_static_rec) := by
  have hf := fold_body_spec hs body hbody s htw
  have hd := drain_tombstones_spec hs none (body.foldl (process_event hs) s)
  have hFD : (body.foldl (process_event hs) s).out <+:
      (drain_tombstones hs none (body.foldl (process_event hs) s)).out := by
    refine List.IsPrefix.trans ?_ hd.1
    rw [List.append_assoc]
    exact List.prefix_append _ _
  refine ⟨?_, ?_, ?_⟩
  · exact (hf.1.trans hFD).trans (List.prefix_append _ _)
  · rw [List.countP_append, hd.2.1, hf.2.1]
    simp [hf.2.2.1, is_deletion_rec]
  · intro hsw
    have hrec := hf.2.2.2 hsw
    rw [List.countP_append, hd.2.2.1, hrec.1]
    simp [hrec.2, is_static_rec]

theorem run_partition_tail (hs : Bool) (body : List MutEvent)
    (hbody : body.all is_body_event = true) (dt : DeletionTime) (s : WriterMState)
    (htw : s.tombstone_written = true)
    (hpre : [DataRec.partition_key, DataRec.deletion dt] <+: s.out)
    (hdel : s.out.countP is_deletion_rec = 1)
    (hsta : hs = true → (s.static_row_written = true ∧
        [DataRec.partition_key, DataRec.deletion dt, DataRec.static_row] <+: s.out ∧
        s.out.countP is_static_rec = 1) ∨
      (s.static_row_written = false ∧
        s.out = [DataRec.partition_key, DataRec.deletion dt])) :
    [DataRec.partition_key, DataRec.deletion dt] <+:
      ((drain_tombstones hs none (body.foldl (process_event hs) s)).out ++
        [DataRec.end_of_partition]) ∧
    ((drain_tombstones hs none (body.foldl (process_event hs) s)).out ++
      [DataRec.end_of_partition]).countP is_deletion_rec = 1 ∧
    (hs = true →
      [DataRec.partition_key, DataRec.deletion dt, DataRec.static_row] <+:
        ((drain_tombstones hs none (body.foldl (process_event hs) s)).out ++
          [DataRec.end_of_partition]) ∧
      ((drain_tombstones hs none (body.foldl (process_event hs) s)).out ++
        [DataRec.end_of_partition]).countP is_static_rec = 1) := by
  have ht := partition_tail_spec hs body hbody s htw
  refine ⟨hpre.trans ht.1, by rw [ht.2.1, hdel], ?_⟩
  intro hhs
  rcases hsta hhs with ⟨hsw, hpre3, hsta1⟩ | ⟨hsw, hout⟩
  · exact ⟨hpre3.trans ht.1, by rw [ht.2.2 hsw, hsta1]⟩
  · have hsta0 : s.out.countP is_static_rec = 0 := by
      rw [hout]
      simp [is_static_rec]
    cases body with
    | nil =>
      simp only [List.foldl_nil]
      have hd := drain_tombstones_spec hs none s
      have hifd : (if s.tombstone_written then ([] : List DataRec) else
          [DataRec.deletion (to_deletion_time empty_tombstone)]) = [] := by
        simp [htw]
      have hifs : (if hs && !s.static_row_written then [DataRec.static_row] else []) =
          [DataRec.static_row] := by
        simp [hhs, hsw]
      constructor
      · have hp3 : [DataRec.partition_key, DataRec.deletion dt, DataRec.static_row] <+:
            (drain_tombstones hs none s).out := by
          have := hd.1
          rw [hifd, hifs, hout] at this
          simpa using this
        exact hp3.trans (List.prefix_append _ _)
      · rw [List.countP_append, hd.2.2.1, hsta0]
        simp [hhs, hsw, is_static_rec]
    | cons e rest =>
      rw [List.all_cons] at hbody
      rcases Bool.and_eq_true_iff.mp hbody with ⟨he, hrest⟩
      have hp := process_event_body_spec hs s e he
      have htw1 : (process_event hs s e).tombstone_written = true := hp.2.2.2.1
      have hsw1 : (process_event hs s e).static_row_written = true := by
        rw [hp.2.2.2.2, hsw, hhs]
        rfl
      have hpre1 : [DataRec.partition_key, DataRec.deletion dt, DataRec.static_row] <+:
          (process_event hs s e).out := by
        have := hp.1
        rw [hout] at this
        simpa [htw, hhs, hsw] using this
      have hsta1 : (process_event hs s e).out.countP is_static_rec = 1 := by
        rw [hp.2.2.1, hsta0, hsw, hhs]
        rfl
      have ht2 := partition_tail_spec hs rest hrest (process_event hs s e) htw1
      constructor
      · have := (hpre1.trans ht2.1)
        simpa [List.foldl_cons] using this
      · have := ht2.2.2 hsw1
        rw [hsta1] at this
        simpa [List.foldl_cons] using this

theorem write_partition_shape (hs : Bool) (evs : List MutEvent)
    (h : wf_events evs = true) :
    [DataRec.partition_key,
     DataRec.deletion (to_deletion_time (partition_tombstone_of evs))] <+:
      write_partition hs evs ∧
    (write_partition hs evs).countP is_deletion_rec = 1 ∧
    (hs = true →
      [DataRec.partition_key,
       DataRec.deletion (to_deletion_time (partition_tombstone_of evs)),
       DataRec.static_row] <+: write_partition hs evs ∧
      (write_partition hs evs).countP is_static_rec = 1) := by
  cases evs with
  | nil =>
    cases hs with
    | false => refine ⟨by decide, by decide, fun hf => by cases hf⟩
    | true => refine ⟨by decide, by decide, fun _ => ⟨by decide, by decide⟩⟩
  | cons e0 rest =>
    cases e0 with
    | tomb t =>
      cases rest with
      | nil =>
        exact run_partition_tail hs [] rfl (to_deletion_time t)
          (process_event hs initial_partition_state (MutEvent.tomb t))
          rfl List.prefix_rfl
          (by simp [process_event, consume_partition_tombstone, initial_partition_state,
            List.countP_cons, is_deletion_rec])
          (fun _ => Or.inr ⟨rfl, rfl⟩)
      | cons e1 rest2 =>
        cases e1 with
        | tomb t2 =>
          exact absurd h (by simp [wf_events, drop_tomb_event, drop_static_event,
            is_body_event])
        | static =>
          have hbody2 : rest2.all is_body_event = true := by
            simpa [wf_events, drop_tomb_event, drop_static_event] using h
          have hs2 : process_event hs (process_event hs initial_partition_state
              (MutEvent.tomb t)) MutEvent.static =
              { tombstone_written := true, static_row_written := true, queue := [],
                end_open_marker := none,
                out := [DataRec.partition_key, DataRec.deletion (to_deletion_time t),
                        DataRec.static_row] } := by
            simp [process_event, consume_static_row, consume_partition_tombstone,
              ensure_tombstone_is_written, initial_partition_state]
          exact run_partition_tail hs rest2 hbody2 (to_deletion_time t)
            (process_event hs (process_event hs initial_partition_state
              (MutEvent.tomb t)) MutEvent.static)
            (by rw [hs2])
            (by rw [hs2]; exact ⟨[DataRec.static_row], rfl⟩)
            (by rw [hs2]; simp [List.countP_cons, is_deletion_rec])
            (fun _ => Or.inl ⟨by rw [hs2], by rw [hs2],
              by rw [hs2]; simp [List.countP_cons, is_static_rec]⟩)
        | row ck =>
          have hbody2 : (MutEvent.row ck :: rest2).all is_body_event = true := by
            simpa [wf_events, drop_tomb_event, drop_static_event] using h
          exact run_partition_tail hs (MutEvent.row ck :: rest2) hbody2
            (to_deletion_time t)
            (process_event hs initial_partition_state (MutEvent.tomb t))
            rfl List.prefix_rfl
            (by simp [process_event, consume_partition_tombstone, initial_partition_state,
              List.countP_cons, is_deletion_rec])
            (fun _ => Or.inr ⟨rfl, rfl⟩)
        | rt r =>
          have hbody2 : (MutEvent.rt r :: rest2).all is_body_event = true := by
            simpa [wf_events, drop_tomb_event, drop_static_event] using h
          exact run_partition_tail hs (MutEvent.rt r :: rest2) hbody2
            (to_deletion_time t)
            (process_event hs initial_partition_state (MutEvent.tomb t))
            rfl List.prefix_rfl
            (by simp [process_event, consume_partition_tombstone, initial_partition_state,
              List.countP_cons, is_deletion_rec])
            (fun _ => Or.inr ⟨rfl, rfl⟩)
    | static =>
      have hbody : rest.all is_body_event = true := by
        simpa [wf_events, drop_tomb_event, drop_static_event] using h
      have hsB : process_event hs initial_partition_state MutEvent.static =
          { tombstone_written := true, static_row_written := true, queue := [],
            end_open_marker := none,
            out := [DataRec.partition_key,
                    DataRec.deletion (to_deletion_time empty_tombstone),
                    DataRec.static_row] } := by
        simp [process_event, consume_static_row, consume_partition_tombstone,
          ensure_tombstone_is_written, initial_partition_state]
      exact run_partition_tail hs rest hbody (to_deletion_time empty_tombstone)
        (process_event hs initial_partition_state MutEvent.static)
        (by rw [hsB])
        (by rw [hsB]; exact ⟨[DataRec.static_row], rfl⟩)
        (by rw [hsB]; simp [List.countP_cons, is_deletion_rec])
        (fun _ => Or.inl ⟨by rw [hsB], by rw [hsB],
          by rw [hsB]; simp [List.countP_cons, is_static_rec]⟩)
    | row ck =>
      have hall : (MutEvent.row ck :: rest).all is_body_event = true := by
        simpa [wf_events, drop_tomb_event, drop_static_event] using h
      rw [List.all_cons] at hall
      rcases Bool.and_eq_true_iff.mp hall with ⟨he0, hrest⟩
      have hp := process_event_body_spec hs initial_partition_state (MutEvent.row ck) he0
      have hp1 := hp.1
      simp only [initial_partition_state, Bool.not_false, Bool.and_true, if_false,
        List.cons_append, List.nil_append] at hp1
      refine run_partition_tail hs rest hrest (to_deletion_time empty_tombstone)
        (process_event hs initial_partition_state (MutEvent.row ck))
        hp.2.2.2.1 ?_ ?_ ?_
      · exact List.IsPrefix.trans ⟨_, rfl⟩ hp1
      · have := hp.2.1
        simpa [initial_partition_state, List.countP_cons, is_deletion_rec] using this
      · intro hhs
        subst hhs
        refine Or.inl ⟨?_, ?_, ?_⟩
        · rw [hp.2.2.2.2]
          simp [initial_partition_state]
        · simpa using hp1
        · have := hp.2.2.1
          simpa [initial_partition_state, List.countP_cons, is_static_rec] using this
    | rt r =>
      have hall : (MutEvent.rt r :: rest).all is_body_event = true := by
        simpa [wf_events, drop_tomb_event, drop_static_event] using h
      rw [List.all_cons] at hall
      rcases Bool.and_eq_true_iff.mp hall with ⟨he0, hrest⟩
      have hp := process_event_body_spec hs initial_partition_state (MutEvent.rt r) he0
      have hp1 := hp.1
      simp only [initial_partition_state, Bool.not_false, Bool.and_true, if_false,
        List.cons_append, List.nil_append] at hp1
      refine run_partition_tail hs rest hrest (to_deletion_time empty_tombstone)
        (process_event hs initial_partition_state (MutEvent.rt r))
        hp.2.2.2.1 ?_ ?_ ?_
      · exact List.IsPrefix.trans ⟨_, rfl⟩ hp1
      · have := hp.2.1
        simpa [initial_partition_state, List.countP_cons, is_deletion_rec] using this
      · intro hhs
        subst hhs
        refine Or.inl ⟨?_, ?_, ?_⟩
        · rw [hp.2.2.2.2]
          simp [initial_partition_state]
        · simpa using hp1
        · have := hp.2.2.1
          simpa [initial_partition_state, List.countP_cons, is_static_rec] using this

/-! ### C9 — partition tombstone record -/

/-- C9: every written partition carries, immediately after the partition
key, exactly one `deletion_time` record (so it precedes any static row,
clustering row or range-tombstone marker), and when the stream supplies no
partition tombstone or an unset one, that record holds the live sentinel
`local_deletion_time = 2^31 - 1`, `marked_for_delete_at = -2^63`. -/
theorem write_partition_deletion_time_spec (hs : Bool) (evs : List MutEvent)
    (h : wf_events evs = true) :
    (write_partition hs evs).take 2 =
      [DataRec.partition_key,
       DataRec.deletion (to_deletion_time (partition_tombstone_of evs))] ∧
    (write_partition hs evs).countP is_deletion_rec = 1 ∧
    ((partition_tombstone_of evs).timestamp = missing_timestamp →
      (write_partition hs evs).take 2 =
        [DataRec.partition_key,
         DataRec.deletion { local_deletion_time := 2 ^ 31 - 1,
                            marked_for_delete_at := -(2 ^ 63) }]) := by
  have hm := write_partition_shape hs evs h
  refine ⟨prefix_take_two _ _ hm.1, hm.2.1, ?_⟩
  intro hmiss
  rw [← to_deletion_time_missing (partition_tombstone_of evs) hmiss]
  exact prefix_take_two _ _ hm.1

/-- Witness for C9: a partition with a set tombstone, a static row and a
row; and a partition with no tombstone event at all (sentinel case). -/
theorem write_partition_deletion_time_spec_witness :
    (wf_events [MutEvent.tomb ⟨10, 20⟩, MutEvent.static, MutEvent.row 5] = true ∧
      ((write_partition true
          [MutEvent.tomb ⟨10, 20⟩, MutEvent.static, MutEvent.row 5]).take 2 =
        [DataRec.partition_key,
         DataRec.deletion (to_deletion_time (partition_tombstone_of
           [MutEvent.tomb ⟨10, 20⟩, MutEvent.static, MutEvent.row 5]))] ∧
       (write_partition true
          [MutEvent.tomb ⟨10, 20⟩, MutEvent.static, MutEvent.row 5]).countP
          is_deletion_rec = 1 ∧
       ((partition_tombstone_of
           [MutEvent.tomb ⟨10, 20⟩, MutEvent.static, MutEvent.row 5]).timestamp =
            missing_timestamp →
         (write_partition true
            [MutEvent.tomb ⟨10, 20⟩, MutEvent.static, MutEvent.row 5]).take 2 =
           [DataRec.partition_key,
            DataRec.deletion { local_deletion_time := 2 ^ 31 - 1,
                               marked_for_delete_at := -(2 ^ 63) }]))) ∧
    (wf_events [MutEvent.row 5] = true ∧
      ((write_partition false [MutEvent.row 5]).take 2 =
        [DataRec.partition_key,
         DataRec.deletion (to_deletion_time (partition_tombstone_of
           [MutEvent.row 5]))] ∧
       (write_partition false [MutEvent.row 5]).countP is_deletion_rec = 1 ∧
       ((partition_tombstone_of [MutEvent.row 5]).timestamp = missing_timestamp →
         (write_partition false [MutEvent.row 5]).take 2 =
           [DataRec.partition_key,
            DataRec.deletion { local_deletion_time := 2 ^ 31 - 1,
                               marked_for_delete_at := -(2 ^ 63) }]))) :=
  ⟨⟨by decide,
    write_partition_deletion_time_spec true
      [MutEvent.tomb ⟨10, 20⟩, MutEvent.static, MutEvent.row 5] (by decide)⟩,
   ⟨by decide,
    write_partition_deletion_time_spec false [MutEvent.row 5] (by decide)⟩⟩

/-! ### C10 — static row always written, before rows and markers -/

/-- C10: under a schema with static columns, every partition gets exactly
one static-row record (a synthetic empty one when the stream supplies
none), placed right after the deletion time — before any clustering row
or range-tombstone marker. -/
theorem write_partition_static_row_spec (evs : List MutEvent)
    (h : wf_events evs = true) :
    (write_partition true evs).take 3 =
      [DataRec.partition_key,
       DataRec.deletion (to_deletion_time (partition_tombstone_of evs)),
       DataRec.static_row] ∧
    (write_partition true evs).countP is_static_rec = 1 ∧
    (∀ i, i < 3 → ∀ r, (write_partition true evs)[i]? = some r →
      is_row_or_marker_rec r = false) := by
  have hm := write_partition_shape true evs h
  have h10 := hm.2.2 rfl
  refine ⟨prefix_take_three _ _ h10.1, h10.2, ?_⟩
  intro i hi r hr
  rcases h10.1 with ⟨tail, htail⟩
  rw [← htail] at hr
  rw [List.getElem?_append, if_pos (by simpa using hi)] at hr
  have hcase : i = 0 ∨ i = 1 ∨ i = 2 := by omega
  rcases hcase with rfl | rfl | rfl <;>
    simp only [List.getElem?_cons_zero, List.getElem?_cons_succ, Option.some.injEq] at hr <;>
    rw [← hr] <;> rfl

/-- Witness for C10: a partition whose stream has a tombstone and rows but
no static row — the synthetic static row is still written at index 2. -/
theorem write_partition_static_row_spec_witness :
    wf_events [MutEvent.tomb ⟨10, 20⟩, MutEvent.row 5] = true ∧
    ((write_partition true [MutEvent.tomb ⟨10, 20⟩, MutEvent.row 5]).take 3 =
      [DataRec.partition_key,
       DataRec.deletion (to_deletion_time (partition_tombstone_of
         [MutEvent.tomb ⟨10, 20⟩, MutEvent.row 5])),
       DataRec.static_row] ∧
     (write_partition true [MutEvent.tomb ⟨10, 20⟩, MutEvent.row 5]).countP
       is_static_rec = 1 ∧
     (∀ i, i < 3 → ∀ r,
       (write_partition true [MutEvent.tomb ⟨10, 20⟩, MutEvent.row 5])[i]? = some r →
       is_row_or_marker_rec r = false)) :=
  ⟨by decide,
   write_partition_static_row_spec [MutEvent.tomb ⟨10, 20⟩, MutEvent.row 5] (by decide)⟩

/-! ### C2 — summary load/save round-trip: helper lemmas -/

theorem read_exactly_at (pre mid post : List Nat) :
    read_exactly (pre ++ (mid ++ post)) pre.length mid.length = some mid := by
  unfold read_exactly
  rw [if_pos]
  · rw [List.drop_left, List.take_left]
  · simp

theorem flatten_map_toBytesLE_length (ps : List Nat) :
    ((ps.map (toBytesLE 4)).flatten).length = 4 * ps.length := by
  induction ps with
  | nil => rfl
  | cons p rest ih => simp [ih, toBytesLE_length]; ring

theorem entries_bytes_length (es : List SummaryEntry) :
    ((es.map entry_bytes).flatten).length = (es.map entry_disk_size).sum := by
  induction es with
  | nil => rfl
  | cons e rest ih =>
    simp [ih, entry_bytes, entry_disk_size, toBytesLE_length]
    omega

theorem chunk_le32_flatten (ps : List Nat) (hps : ∀ p ∈ ps, p < 2 ^ 32) :
    chunk_le32 ps.length ((ps.map (toBytesLE 4)).flatten) = ps := by
  induction ps with
  | nil => rfl
  | cons p rest ih =>
    have hlen : (toBytesLE 4 p).length = 4 := toBytesLE_length _ _
    simp only [List.map_cons, List.flatten_cons, List.length_cons, chunk_le32]
    rw [List.take_left' hlen, List.drop_left' hlen, fromBytesLE_toBytesLE,
      Nat.mod_eq_of_lt (hps p (by simp)), ih (fun q hq => hps q (by simp [hq]))]

theorem parse_disk_string_at (pre v post : List Nat) (hv : v.length < 2 ^ 32) :
    parse_disk_string (pre ++ (write_disk_string v ++ post)) pre.length =
      some (v, pre.length + 4 + v.length) := by
  unfold parse_disk_string write_disk_string
  have h1 : pre ++ ((toBytesBE 4 v.length ++ v) ++ post) =
      pre ++ (toBytesBE 4 v.length ++ (v ++ post)) := by simp
  rw [h1]
  have h2 : read_exactly (pre ++ (toBytesBE 4 v.length ++ (v ++ post))) pre.length 4 =
      some (toBytesBE 4 v.length) := by
    have := read_exactly_at pre (toBytesBE 4 v.length) (v ++ post)
    rwa [toBytesBE_length] at this
  rw [h2]
  have h3 : fromBytesBE (toBytesBE 4 v.length) = v.length := by
    rw [fromBytesBE_toBytesBE]
    exact Nat.mod_eq_of_lt hv
  simp only [h3]
  have h4 : read_exactly (pre ++ (toBytesBE 4 v.length ++ (v ++ post)))
      (pre.length + 4) v.length = some v := by
    have := read_exactly_at (pre ++ toBytesBE 4 v.length) v post
    rw [List.length_append, toBytesBE_length] at this
    rwa [List.append_assoc] at this
  rw [h4]

theorem seal_loop_full_cons (mem : Nat) (es : List SummaryEntry) :
    ∃ tl, (seal_positions_loop mem es).1 ++ [(seal_positions_loop mem es).2] =
      mem :: tl := by
  cases es with
  | nil => exact ⟨[], rfl⟩
  | cons e rest =>
    exact ⟨(seal_positions_loop (mem + entry_disk_size e) rest).1 ++
      [(seal_positions_loop (mem + entry_disk_size e) rest).2],
      by simp [seal_positions_loop]⟩

theorem seal_loop_elem_le (mem : Nat) (es : List SummaryEntry) :
    ∀ p ∈ (seal_positions_loop mem es).1, p ≤ (seal_positions_loop mem es).2 := by
  induction es generalizing mem with
  | nil => simp [seal_positions_loop]
  | cons e rest ih =>
    intro p hp
    have h1 : (seal_positions_loop mem (e :: rest)).1 =
        mem :: (seal_positions_loop (mem + entry_disk_size e) rest).1 := rfl
    have h2 : (seal_positions_loop mem (e :: rest)).2 =
        (seal_positions_loop (mem + entry_disk_size e) rest).2 := rfl
    rw [h1, List.mem_cons] at hp
    rw [h2]
    rcases hp with rfl | hp
    · rw [seal_positions_loop_total]
      omega
    · exact ih (mem + entry_disk_size e) p hp

theorem parse_entries_spec (tok : List Nat → List Nat) (post : List Nat)
    (es : List SummaryEntry)
    (hes : ∀ e ∈ es, e.token = tok e.key ∧ e.position < 2 ^ 64) :
    ∀ (pre : List Nat) (mem : Nat),
    parse_entries tok (pre ++ ((es.map entry_bytes).flatten ++ post)) pre.length
      ((seal_positions_loop mem es).1 ++ [(seal_positions_loop mem es).2])
      es.length = some es := by
  induction es with
  | nil =>
    intro pre mem
    rfl
  | cons e rest ih =>
    intro pre mem
    rcases seal_loop_full_cons (mem + entry_disk_size e) rest with ⟨tl, htl⟩
    have hcons1 : (seal_positions_loop mem (e :: rest)).1 =
        mem :: (seal_positions_loop (mem + entry_disk_size e) rest).1 := rfl
    have hcons2 : (seal_positions_loop mem (e :: rest)).2 =
        (seal_positions_loop (mem + entry_disk_size e) rest).2 := rfl
    have hps : (seal_positions_loop mem (e :: rest)).1 ++
        [(seal_positions_loop mem (e :: rest)).2] =
        mem :: ((mem + entry_disk_size e) :: tl) := by
      rw [hcons1, hcons2, List.cons_append, htl]
    rw [hps]
    have hsz : (mem + entry_disk_size e) - mem = entry_disk_size e := by omega
    have hnotlt : ¬((mem + entry_disk_size e) - mem < 8) := by
      rw [hsz]
      simp [entry_disk_size]
    show (if (mem + entry_disk_size e) - mem < 8 then none
      else
        match read_exactly (pre ++ (((e :: rest).map entry_bytes).flatten ++ post))
            pre.length ((mem + entry_disk_size e) - mem) with
        | none => none
        | some buf =>
          match parse_entries tok (pre ++ (((e :: rest).map entry_bytes).flatten ++ post))
              (pre.length + ((mem + entry_disk_size e) - mem))
              ((mem + entry_disk_size e) :: tl) rest.length with
          | none => none
          | some es =>
            some ({ token := tok (buf.take ((mem + entry_disk_size e) - mem - 8)),
                    key := buf.take ((mem + entry_disk_size e) - mem - 8),
                    position := fromBytesLE (buf.drop ((mem + entry_disk_size e) - mem - 8)) }
              :: es)) = some (e :: rest)
    rw [if_neg hnotlt]
    have hbs : pre ++ (((e :: rest).map entry_bytes).flatten ++ post) =
        pre ++ (entry_bytes e ++ ((rest.map entry_bytes).flatten ++ post)) := by
      simp
    have hread : read_exactly (pre ++ (((e :: rest).map entry_bytes).flatten ++ post))
        pre.length ((mem + entry_disk_size e) - mem) = some (entry_bytes e) := by
      rw [hbs, hsz]
      have := read_exactly_at pre (entry_bytes e) ((rest.map entry_bytes).flatten ++ post)
      have hlen : (entry_bytes e).length = entry_disk_size e := by
        simp [entry_bytes, entry_disk_size, toBytesLE_length]
      rwa [hlen] at this
    rw [hread]
    have hkeylen : (e.key).length = (mem + entry_disk_size e) - mem - 8 := by
      rw [hsz]
      simp [entry_disk_size]
    have htake : (entry_bytes e).take ((mem + entry_disk_size e) - mem - 8) = e.key := by
      rw [← hkeylen]
      exact List.take_left e.key (toBytesLE 8 e.position)
    have hdrop : (entry_bytes e).drop ((mem + entry_disk_size e) - mem - 8) =
        toBytesLE 8 e.position := by
      rw [← hkeylen]
      exact List.drop_left e.key (toBytesLE 8 e.position)
    have hrec : parse_entries tok (pre ++ (((e :: rest).map entry_bytes).flatten ++ post))
        (pre.length + ((mem + entry_disk_size e) - mem))
        ((mem + entry_disk_size e) :: tl) rest.length = some rest := by
      rw [hbs, hsz, ← htl]
      have hlen2 : pre.length + entry_disk_size e = (pre ++ entry_bytes e).length := by
        simp [entry_bytes, entry_disk_size, toBytesLE_length]
      rw [hlen2, show pre ++ (entry_bytes e ++ ((rest.map entry_bytes).flatten ++ post)) =
        (pre ++ entry_bytes e) ++ ((rest.map entry_bytes).flatten ++ post) by simp]
      exact ih (fun x hx => hes x (by simp [hx])) (pre ++ entry_bytes e)
        (mem + entry_disk_size e)
    rw [hrec]
    have he := hes e (by simp)
    have : { token := tok ((entry_bytes e).take ((mem + entry_disk_size e) - mem - 8)),
             key := (entry_bytes e).take ((mem + entry_disk_size e) - mem - 8),
             position := fromBytesLE ((entry_bytes e).drop
               ((mem + entry_disk_size e) - mem - 8)) } = e := by
      rw [htake, hdrop, fromBytesLE_toBytesLE, Nat.mod_eq_of_lt he.2, ← he.1]
    exact congrArg (fun z => some (z :: rest)) this

theorem read_exactly_zero (mid post : List Nat) :
    read_exactly (mid ++ post) 0 mid.length = some mid :=
  read_exactly_at [] mid post

set_option maxHeartbeats 2000000

/-- C2: load/save round-trip of the summary.  For every well-formed
summary (one shaped as `seal_summary` leaves it, with fields in range and
tokens equal to the partitioner's token of their key), parsing the bytes
written by `write(summary)` returns the summary unchanged; the transient
`positions[size]` boundary pushed during load equals `memory_size` and is
popped, so the loaded positions array has exactly `header.size` (=
`entries.length`) elements. -/
theorem parse_write_summary (tok : List Nat → List Nat) (s : Summary)
    (h : well_formed_summary tok s) :
    parse_summary tok (write_summary s) = some s ∧
    s.positions.length = s.header.size := by
  obtain ⟨⟨mii, size, mem, sl, safs⟩, pos, ents, fk, lk⟩ := s
  unfold well_formed_summary at h
  obtain ⟨hsize, hpos, hmem, hmemlt, hmii, hsl, hsafs, hent, hfklt, hlklt, hfkb, hlkb⟩ := h
  simp only [] at hsize hpos hmem hmemlt hmii hsl hsafs hent hfklt hlklt hfkb hlkb
  have hposlen : pos.length = ents.length := by
    rw [hpos]
    exact seal_positions_loop_length _ _
  refine ⟨?_, by simpa using hposlen.trans hsize.symm⟩
  have hsum : mem = ents.length * 4 + (ents.map entry_disk_size).sum := by
    rw [hmem, seal_positions_loop_total]
  have hsizelt : size < 2 ^ 32 := by
    rw [hsize]
    omega
  have hA : (toBytesBE 4 mii).length = 4 := toBytesBE_length _ _
  have hB : (toBytesBE 4 size).length = 4 := toBytesBE_length _ _
  have hC : (toBytesBE 8 mem).length = 8 := toBytesBE_length _ _
  have hD : (toBytesBE 4 sl).length = 4 := toBytesBE_length _ _
  have hE : (toBytesBE 4 safs).length = 4 := toBytesBE_length _ _
  set H := toBytesBE 4 mii ++ toBytesBE 4 size ++ toBytesBE 8 mem ++
    toBytesBE 4 sl ++ toBytesBE 4 safs with hH
  set posB := (pos.map (toBytesLE 4)).flatten with hposB
  set entB := (ents.map entry_bytes).flatten with hentB
  set fkB := write_disk_string fk with hfkB
  set lkB := write_disk_string lk with hlkB
  have hw : write_summary ⟨⟨mii, size, mem, sl, safs⟩, pos, ents, fk, lk⟩ =
      H ++ posB ++ entB ++ fkB ++ lkB := rfl
  have hHlen : H.length = 24 := by
    rw [hH]
    simp [toBytesBE_length]
  have hposBlen : posB.length = 4 * ents.length := by
    rw [hposB, flatten_map_toBytesLE_length, hposlen]
  have hentBlen : entB.length = (ents.map entry_disk_size).sum := by
    rw [hentB]
    exact entries_bytes_length ents
  -- step 1: the header bytes
  have hread1 : read_exactly (H ++ posB ++ entB ++ fkB ++ lkB) 0 24 = some H := by
    have hs1 : H ++ posB ++ entB ++ fkB ++ lkB =
        H ++ (posB ++ (entB ++ (fkB ++ lkB))) := by simp [List.append_assoc]
    rw [hs1, show (24 : Nat) = H.length from hHlen.symm]
    exact read_exactly_zero H _
  -- header field decodes
  have hHr1 : H = toBytesBE 4 mii ++ (toBytesBE 4 size ++ (toBytesBE 8 mem ++
      (toBytesBE 4 sl ++ toBytesBE 4 safs))) := by
    rw [hH]; simp [List.append_assoc]
  have hHr2 : H = (toBytesBE 4 mii ++ toBytesBE 4 size) ++ (toBytesBE 8 mem ++
      (toBytesBE 4 sl ++ toBytesBE 4 safs)) := by
    rw [hH]; simp [List.append_assoc]
  have hHr3 : H = (toBytesBE 4 mii ++ toBytesBE 4 size ++ toBytesBE 8 mem) ++
      (toBytesBE 4 sl ++ toBytesBE 4 safs) := by
    rw [hH]; simp [List.append_assoc]
  have hHr4 : H = (toBytesBE 4 mii ++ toBytesBE 4 size ++ toBytesBE 8 mem ++
      toBytesBE 4 sl) ++ toBytesBE 4 safs := by
    rw [hH]
  have hv1 : fromBytesBE (H.take 4) = mii := by
    rw [hHr1, List.take_left' hA, fromBytesBE_toBytesBE]
    exact Nat.mod_eq_of_lt hmii
  have hv2 : fromBytesBE ((H.drop 4).take 4) = size := by
    rw [hHr1, List.drop_left' hA, List.take_left' hB, fromBytesBE_toBytesBE]
    exact Nat.mod_eq_of_lt hsizelt
  have hv3 : fromBytesBE ((H.drop 8).take 8) = mem := by
    rw [hHr2, List.drop_left' (by simp [hA, hB]), List.take_left' hC,
      fromBytesBE_toBytesBE]
    exact Nat.mod_eq_of_lt (lt_trans hmemlt (by norm_num))
  have hv4 : fromBytesBE ((H.drop 16).take 4) = sl := by
    rw [hHr3, List.drop_left' (by simp [hA, hB, hC]), List.take_left' hD,
      fromBytesBE_toBytesBE]
    exact Nat.mod_eq_of_lt hsl
  have hv5 : fromBytesBE ((H.drop 20).take 4) = safs := by
    rw [hHr4, List.drop_left' (by simp [hA, hB, hC, hD]),
      List.take_of_length_le (le_of_eq hE), fromBytesBE_toBytesBE]
    exact Nat.mod_eq_of_lt hsafs
  -- step 2: the positions bytes
  have hread2 : read_exactly (H ++ posB ++ entB ++ fkB ++ lkB) 24 (size * 4) =
      some posB := by
    have hs1 : H ++ posB ++ entB ++ fkB ++ lkB =
        H ++ (posB ++ (entB ++ (fkB ++ lkB))) := by simp [List.append_assoc]
    rw [hs1, show (24 : Nat) = H.length from hHlen.symm,
      show size * 4 = posB.length by rw [hposBlen, hsize]; ring]
    exact read_exactly_at H posB _
  have hchunk : chunk_le32 size posB = pos := by
    have hbound : ∀ p ∈ pos, p < 2 ^ 32 := by
      intro p hp
      rw [hpos] at hp
      have := seal_loop_elem_le (ents.length * 4) ents p hp
      rw [← hmem] at this
      omega
    rw [hposB, show size = pos.length from hsize.trans hposlen.symm]
    exact chunk_le32_flatten pos hbound
  -- step 3: first and last keys
  have hfirst : parse_disk_string (H ++ posB ++ entB ++ fkB ++ lkB) (24 + mem) =
      some (fk, 24 + mem + 4 + fk.length) := by
    have hs2 : H ++ posB ++ entB ++ fkB ++ lkB =
        (H ++ posB ++ entB) ++ (fkB ++ lkB) := by simp [List.append_assoc]
    have hlen2 : (H ++ posB ++ entB).length = 24 + mem := by
      simp [List.length_append, hHlen, hposBlen, hentBlen, hsum]
      ring
    rw [hs2, show 24 + mem = (H ++ posB ++ entB).length from hlen2.symm, hfkB]
    exact parse_disk_string_at (H ++ posB ++ entB) fk lkB hfklt
  have hlast : parse_disk_string (H ++ posB ++ entB ++ fkB ++ lkB)
      (24 + mem + 4 + fk.length) = some (lk, 24 + mem + 4 + fk.length + 4 + lk.length) := by
    have hs3 : H ++ posB ++ entB ++ fkB ++ lkB =
        (H ++ posB ++ entB ++ fkB) ++ (lkB ++ []) := by simp [List.append_assoc]
    have hlen3 : (H ++ posB ++ entB ++ fkB).length = 24 + mem + 4 + fk.length := by
      simp [List.length_append, hHlen, hposBlen, hentBlen, hsum, hfkB,
        write_disk_string, toBytesBE_length]
      ring
    rw [hs3, show 24 + mem + 4 + fk.length = (H ++ posB ++ entB ++ fkB).length from
      hlen3.symm, hlkB]
    exact parse_disk_string_at (H ++ posB ++ entB ++ fkB) lk [] hlklt
  -- step 4: the boundary-extended positions array and its head
  have hmemmod : mem % 2 ^ 32 = mem := Nat.mod_eq_of_lt hmemlt
  rcases seal_loop_full_cons (ents.length * 4) ents with ⟨tl, htl⟩
  have hposfull : pos ++ [mem] = ents.length * 4 :: tl := by
    rw [hpos, hmem]
    exact htl
  -- step 5: the entries
  have hentries : parse_entries tok (H ++ posB ++ entB ++ fkB ++ lkB)
      (ents.length * 4 + 24) (pos ++ [mem]) size = some ents := by
    have hs4 : H ++ posB ++ entB ++ fkB ++ lkB =
        (H ++ posB) ++ (entB ++ (fkB ++ lkB)) := by simp [List.append_assoc]
    have hlen4 : (H ++ posB).length = ents.length * 4 + 24 := by
      simp [List.length_append, hHlen, hposBlen]
      ring
    rw [hs4, show ents.length * 4 + 24 = (H ++ posB).length from hlen4.symm,
      show pos ++ [mem] = (seal_positions_loop (ents.length * 4) ents).1 ++
        [(seal_positions_loop (ents.length * 4) ents).2] by rw [hpos, hmem],
      hsize, hentB]
    exact parse_entries_spec tok (fkB ++ lkB) ents
      (fun e he => ⟨(hent e he).1, (hent e he).2.1⟩) (H ++ posB) (ents.length * 4)
  -- assemble
  rw [hw]
  unfold parse_summary
  rw [hread1]
  simp only [hv1, hv2, hv3, hv4, hv5, hread2, hchunk, hmemmod, hfirst, hlast,
    List.dropLast_concat]
  rw [hposfull] at hentries
  rw [hposfull]
  simp only [List.head?_cons]
  rw [hentries]

/-- Witness for C2: a sealed one-entry summary survives the byte-level
round-trip under a constant partitioner. -/
theorem parse_write_summary_witness :
    well_formed_summary (fun _ => [])
      { header := ⟨128, 1, 14, 128, 1⟩
        positions := [4]
        entries := [⟨[], [5, 6], 7⟩]
        first_key := [5, 6]
        last_key := [5, 6] } ∧
    (parse_summary (fun _ => [])
        (write_summary
          { header := ⟨128, 1, 14, 128, 1⟩
            positions := [4]
            entries := [⟨[], [5, 6], 7⟩]
            first_key := [5, 6]
            last_key := [5, 6] }) =
      some { header := ⟨128, 1, 14, 128, 1⟩
             positions := [4]
             entries := [⟨[], [5, 6], 7⟩]
             first_key := [5, 6]
             last_key := [5, 6] } ∧
     ({ header := ⟨128, 1, 14, 128, 1⟩
        positions := [4]
        entries := [⟨[], [5, 6], 7⟩]
        first_key := [5, 6]
        last_key := [5, 6] } : Summary).positions.length =
       ({ header := ⟨128, 1, 14, 128, 1⟩
          positions := [4]
          entries := [⟨[], [5, 6], 7⟩]
          first_key := [5, 6]
          last_key := [5, 6] } : Summary).header.size) :=
  ⟨by decide,
   parse_write_summary (fun _ => [])
     { header := ⟨128, 1, 14, 128, 1⟩
       positions := [4]
       entries := [⟨[], [5, 6], 7⟩]
       first_key := [5, 6]
       last_key := [5, 6] } (by decide)⟩

end Sstables
